import Mathlib

/-!
# Verification of the pycocontainer dependency-lifecycle core

Shallow embedding of `dag.py` (the acyclic graph with Kahn topological
sorting) and `pycocontainer.py` (the lifecycle orchestrator) from the
`saintx/pycocontainer` repository, together with proofs of the spec-level
claims about them.

Modelling conventions:
* Vertices are natural numbers (Python object identities).
* A Python `dict` mapping vertices to lists of successors is an
  association list `List (V × List V)`; dict keys are unique, which the
  well-formedness predicates record as `Nodup` of the key list.
* A Python `set` with its arbitrary-element `pop()` is modelled by a
  deterministic representative: in `_toposort` the pending set is a
  strictly sorted list popped at the head (the minimum), in
  `successors`/`precursors` the pending set is a duplicate-free list
  popped at a deterministically chosen element.  Every claim proved below
  is insensitive to the particular choice function.
* Loops whose termination depends on data invariants take an explicit
  fuel argument; the fuel supplied by the wrappers is proved sufficient.
* Exceptions are `Except`, or an `Option` error component carried next to
  the state when partially-mutated state is observable after the raise.
-/

namespace Pyco

abbrev V := Nat

/-- `self.edges`: Python dict from vertex to its list of direct successors. -/
abbrev Edges := List (V × List V)

/-- Keys of the dict, in insertion order. -/
def keyList (es : Edges) : List V := es.map Prod.fst

/-- Python `edges[v]` / `v in edges`: first (unique) binding of `v`. -/
def lk (es : Edges) (v : V) : Option (List V) :=
  match es with
  | [] => none
  | (k, l) :: es => if k = v then some l else lk es v

/-- `edges[v]` with default `[]` (only used in specifications). -/
def lkD (es : Edges) (v : V) : List V := (lk es v).getD []

def hasKey (es : Edges) (v : V) : Bool := (lk es v).isSome

/-- In-place update of the value bound to key `n`. -/
def updVal : Edges → V → (List V → List V) → Edges
  | [], _, _ => []
  | (k, l) :: es, n, f =>
      if k = n then (k, f l) :: updVal es n f else (k, l) :: updVal es n f

/-- `set(itertools.chain.from_iterable(edges.values()))` as a list
(membership is all that is ever used). -/
def childList (es : Edges) : List V := (es.map Prod.snd).flatten

/-- Total number of (occurrences of) edges. -/
def totalEdges (es : Edges) : Nat := (es.map (fun p => p.2.length)).sum

/-- Edge relation of a dict: `w ∈ edges[v]`. -/
def edgeOf (es : Edges) (v w : V) : Prop := ∃ l, lk es v = some l ∧ w ∈ l

/-- Insertion into a strictly sorted list (the model of `set.add`). -/
def sinsert (m : V) : List V → List V
  | [] => [m]
  | x :: xs => if m < x then m :: x :: xs else if m = x then x :: xs else x :: sinsert m xs

/-- Strictly sorted duplicate-free list with the given members. -/
def sortDedup (l : List V) : List V := l.foldr sinsert []

/-- `x not in children`: vertex has no incoming edge. -/
def noIncomingB (es : Edges) (v : V) : Bool := !(es.any (fun p => v ∈ p.2))

/-- Initial pending set of Kahn's algorithm:
`set([x for x in edges if x not in children])`. -/
def initRem (es : Edges) : List V := sortDedup ((keyList es).filter (noIncomingB es))

/-- Inner loop of `_toposort`:
`for m in [x for x in edges[n]]: edges[n].remove(m); incoming = [e for e in
edges if m in edges[e]];  if [] == incoming: rem.add(m)`.
The first argument list is the copy being iterated. -/
def remChildren (es : Edges) (n : V) (rem : List V) : List V → Edges × List V
  | [] => (es, rem)
  | m :: ms =>
      let es' := updVal es n (fun l => l.erase m)
      let rem' := if es'.any (fun p => m ∈ p.2) then rem else sinsert m rem
      remChildren es' n rem' ms

/-- Outer loop of `_toposort`: pop a vertex from the pending set, append it
to the result, then discharge its outgoing edges. -/
def kahnLoop : Nat → Edges → List V → List V → Edges × List V
  | 0, es, _, ret => (es, ret)
  | fuel + 1, es, rem, ret =>
      match rem with
      | [] => (es, ret)
      | n :: rem' =>
          match lk es n with
          | some l =>
              let p := remChildren es n rem' l
              kahnLoop fuel p.1 p.2 (ret ++ [n])
          | none => kahnLoop fuel es rem' (ret ++ [n])

/-- `Graph._toposort`: error value is the `CycleDetected` exception. -/
def toposort (es : Edges) : Except Unit (List V) :=
  let r := kahnLoop (totalEdges es + (keyList es).length + 1) es (initRem es) []
  if r.1.any (fun p => p.2 ≠ []) then .error () else .ok r.2

/-- `dag.Graph`: edge dict plus the maintained topological order. -/
structure Graph where
  edges : Edges
  toporder : List V
deriving DecidableEq

def Graph.empty : Graph := ⟨[], []⟩

/-- `Graph.add(v)` (the `w is None` path): ensure `v` is a key, recompute
the order; on `CycleDetected` the pre-state is untouched. -/
def Graph.addVertex (g : Graph) (v : V) : Except Unit Graph :=
  let es := if hasKey g.edges v then g.edges else g.edges ++ [(v, [])]
  match toposort es with
  | .ok t => .ok ⟨es, t⟩
  | .error e => .error e

/-- `Graph.add(v, w)` (both given): append `w` to `edges[v]` (creating
either key as needed), recompute the order; on `CycleDetected` the
pre-state is untouched. -/
def Graph.addEdge (g : Graph) (v w : V) : Except Unit Graph :=
  let es1 := if hasKey g.edges v then updVal g.edges v (fun l => l ++ [w])
             else g.edges ++ [(v, [w])]
  let es2 := if hasKey es1 w then es1 else es1 ++ [(w, [])]
  match toposort es2 with
  | .ok t => .ok ⟨es2, t⟩
  | .error e => .error e

/-- The edge dict `Graph.remove(v)` rebuilds: delete the key and erase the
first occurrence of `v` from every remaining value list
(`edges[edge].remove(v)`). -/
def removedEdges (es : Edges) (v : V) : Edges :=
  (es.filter (fun p => p.1 ≠ v)).map (fun p => (p.1, p.2.erase v))

/-- `Graph.remove(v)`. -/
def Graph.removeVertex (g : Graph) (v : V) : Except Unit Graph :=
  let es := removedEdges g.edges v
  match toposort es with
  | .ok t => .ok ⟨es, t⟩
  | .error e => .error e

/-- Position of `v` in the list `L` (first occurrence; `L.length` if absent). -/
def idx (L : List V) (v : V) : Nat :=
  match L with
  | [] => 0
  | x :: xs => if x = v then 0 else idx xs v + 1

/-- Deterministic representative of `set.pop()` for the `successors` walk:
the pending element placed earliest in the maintained topological order. -/
def pickMin (L : List V) : List V → V
  | [] => 0
  | [x] => x
  | x :: y :: xs =>
      let z := pickMin L (y :: xs)
      if idx L x ≤ idx L z then x else z

/-- Deterministic representative of `set.pop()` for the `precursors` walk:
the pending element placed latest in the maintained topological order. -/
def pickMax (L : List V) : List V → V
  | [] => 0
  | [x] => x
  | x :: y :: xs =>
      let z := pickMax L (y :: xs)
      if idx L z ≤ idx L x then x else z

/-- `rem.add(m)` on a duplicate-free pending list. -/
def addIfAbsent (rem : List V) (m : V) : List V :=
  if m ∈ rem then rem else rem ++ [m]

/-- Loop of `Graph.successors`: pop `n`, append to `ret`, and enqueue the
direct successors of `n`. -/
def succLoop (L : List V) (es : Edges) : Nat → List V → List V → List V
  | 0, _, ret => ret
  | _ + 1, [], ret => ret
  | fuel + 1, r :: rs, ret =>
      let n := pickMin L (r :: rs)
      let rem' := (r :: rs).erase n
      let rem'' := match lk es n with
        | some l => l.foldl addIfAbsent rem'
        | none => rem'
      succLoop L es fuel rem'' (ret ++ [n])

/-- `Graph.successors(vertex)`: `edges[vertex]` raises `KeyError` when the
vertex is absent; otherwise walk the reachable set and render it in
topological order. -/
def Graph.successors (g : Graph) (v : V) : Except Unit (List V) :=
  match lk g.edges v with
  | none => .error ()
  | some l =>
      let ret := succLoop g.toporder g.edges (g.toporder.length + 1)
        (l.foldl addIfAbsent []) []
      .ok (g.toporder.filter (fun x => x ∈ ret))

/-- Loop of `Graph.precursors`: pop `n`, append to `ret`, and enqueue every
key with an edge into `n`. -/
def precLoop (L : List V) (es : Edges) : Nat → List V → List V → List V
  | 0, _, ret => ret
  | _ + 1, [], ret => ret
  | fuel + 1, r :: rs, ret =>
      let n := pickMax L (r :: rs)
      let rem' := (r :: rs).erase n
      let rem'' := ((keyList es).filter (fun m => n ∈ lkD es m)).foldl addIfAbsent rem'
      precLoop L es fuel rem'' (ret ++ [n])

/-- `Graph.precursors(vertex)`: note that the Python code never touches
`edges[vertex]`, so an absent vertex raises nothing. -/
def Graph.precursors (g : Graph) (v : V) : List V :=
  let rem0 := (keyList g.edges).filter (fun m => v ∈ lkD g.edges m)
  let ret := precLoop g.toporder g.edges (g.toporder.length + 1) rem0 []
  g.toporder.filter (fun x => x ∈ ret)

/-- Well-formedness of a reachable `Graph` state: dict keys are unique and
the maintained order is the (successful) topological sort of the dict. -/
def Graph.WF (g : Graph) : Prop :=
  (keyList g.edges).Nodup ∧ toposort g.edges = .ok g.toporder

/-- `v` strictly precedes `w` in the list `L`. -/
def Precedes (L : List V) (v w : V) : Prop :=
  v ∈ L ∧ w ∈ L ∧ idx L v < idx L w

/-- No nonempty directed path returns to its origin. -/
def Acyclic (es : Edges) : Prop := ∀ v, ¬ Relation.TransGen (edgeOf es) v v

/-! ## The lifecycle orchestrator (`pycocontainer.py`) -/

/-- `Stage` enumeration. -/
inductive Stage
  | starting | started | stopping | stopped | failing | failed
deriving DecidableEq

/-- A node's caller-supplied lifecycle actions, abstracted as the effect of
`node.start()` / `node.stop()` / `node.fail()` on that node's own stage. -/
structure Behav where
  bstart : V → Stage → Stage
  bstop : V → Stage → Stage
  bfail : V → Stage → Stage

/-- Current stage of every node. -/
abbrev Stages := V → Stage

def upd (s : Stages) (n : V) (σ : Stage) : Stages :=
  fun m => if m = n then σ else s m

/-- Exceptions escaping a sweep.  `lifecycleExc n` is
`LifecycleException('Could not properly … node %s' % n)`; `keyError v` is
the `KeyError` from `dag.successors`; `unboundLocal` is the
`UnboundLocalError` raised by the descendant branch of `fail(instance)`,
whose raise-line references the undefined name `node`. -/
inductive LErr
  | lifecycleExc (v : V)
  | keyError (v : V)
  | unboundLocal
deriving DecidableEq

/-- `_start_node`: skip the action when already Started/Starting, then
demand the terminal stage.  The returned stage map is the state after the
call even when it raises. -/
def startNode (B : Behav) (s : Stages) (n : V) : Stages × Option LErr :=
  let s' := if s n = Stage.started ∨ s n = Stage.starting then s
            else upd s n (B.bstart n (s n))
  if s' n = Stage.started then (s', none) else (s', some (.lifecycleExc n))

/-- `_stop_node`: skip when already Stopped/Stopping, demand Stopped. -/
def stopNode (B : Behav) (s : Stages) (n : V) : Stages × Option LErr :=
  let s' := if s n = Stage.stopped ∨ s n = Stage.stopping then s
            else upd s n (B.bstop n (s n))
  if s' n = Stage.stopped then (s', none) else (s', some (.lifecycleExc n))

/-- The fail transition has no idempotence guard: `node.fail()` is invoked
unconditionally; `e` is the exception the enclosing loop would raise. -/
def failNode (B : Behav) (s : Stages) (n : V) (e : LErr) : Stages × Option LErr :=
  let s' := upd s n (B.bfail n (s n))
  if s' n = Stage.failed then (s', none) else (s', some e)

/-- Drive one node function over a list, aborting at the first raise and
keeping the partially mutated stages. -/
def sweep (f : Stages → V → Stages × Option LErr) : Stages → List V → Stages × Option LErr
  | s, [] => (s, none)
  | s, n :: ns =>
      match f s n with
      | (s', none) => sweep f s' ns
      | (s', some e) => (s', some e)

/-- Orchestrator-visible state: all node stages plus the container's own
`Lifecycle` stage. -/
structure CState where
  stages : Stages
  cstage : Stage

/-- `LifecycleContainer.start(instance)`.  Note `self.starting()` runs
before the branch and `self.started()` after it, for a targeted start as
well as for a full sweep. -/
def contStart (B : Behav) (g : Graph) (st : CState) (inst : Option V) :
    CState × Option LErr :=
  let nodes := match inst with
    | none => g.toporder
    | some v => g.precursors v ++ [v]
  match sweep (startNode B) st.stages nodes with
  | (s, none) => (⟨s, Stage.started⟩, none)
  | (s, some e) => (⟨s, Stage.starting⟩, some e)

/-- `covered`: the target's dependent closure is everyone else, measured
against `len(dag.toporder) - 1`. -/
def coveredBy (g : Graph) (descs : List V) : Prop :=
  descs.length = g.toporder.length - 1

instance (g : Graph) (d : List V) : Decidable (coveredBy g d) := by
  unfold coveredBy; infer_instance

/-- `LifecycleContainer.stop(instance)`. -/
def contStop (B : Behav) (g : Graph) (st : CState) (inst : Option V) :
    CState × Option LErr :=
  match inst with
  | none =>
      match sweep (stopNode B) st.stages g.toporder.reverse with
      | (s, none) => (⟨s, Stage.stopped⟩, none)
      | (s, some e) => (⟨s, Stage.stopping⟩, some e)
  | some v =>
      match g.successors v with
      | .error _ => (st, some (.keyError v))
      | .ok descs =>
          let c1 := if coveredBy g descs then Stage.stopping else st.cstage
          match sweep (stopNode B) st.stages (descs.reverse ++ [v]) with
          | (s, none) => (⟨s, if coveredBy g descs then Stage.stopped else c1⟩, none)
          | (s, some e) => (⟨s, c1⟩, some e)

/-- `LifecycleContainer.fail(instance)`.  The descendant loop raises
`UnboundLocalError` (not `LifecycleException`) on a bad post-stage because
its raise-line mentions the name `node`, which is never bound on that
path; the final target check correctly uses `instance`. -/
def contFail (B : Behav) (g : Graph) (st : CState) (inst : Option V) :
    CState × Option LErr :=
  match inst with
  | none =>
      match sweep (fun s n => failNode B s n (.lifecycleExc n)) st.stages
          g.toporder.reverse with
      | (s, none) => (⟨s, Stage.failed⟩, none)
      | (s, some e) => (⟨s, Stage.failing⟩, some e)
  | some v =>
      match g.successors v with
      | .error _ => (st, some (.keyError v))
      | .ok descs =>
          let c1 := if coveredBy g descs then Stage.failing else st.cstage
          match sweep (fun s n => failNode B s n .unboundLocal) st.stages
              descs.reverse with
          | (s, some e) => (⟨s, c1⟩, some e)
          | (s, none) =>
              match failNode B s v (.lifecycleExc v) with
              | (s', none) => (⟨s', if coveredBy g descs then Stage.failed else c1⟩, none)
              | (s', some e) => (⟨s', c1⟩, some e)

/-- The ascending restart phase: `self.start(descendant)` for each
descendant and then `self.start(instance)` — each a full targeted start. -/
def startSeq (B : Behav) (g : Graph) : CState → List V → CState × Option LErr
  | st, [] => (st, none)
  | st, d :: ds =>
      match contStart B g st (some d) with
      | (st', none) => startSeq B g st' ds
      | (st', some e) => (st', some e)

/-- `LifecycleContainer.restart(instance)` for a given target (the
`instance=None` call crashes with a `KeyError` inside `dag.successors`
and is outside the claims). -/
def contRestart (B : Behav) (g : Graph) (st : CState) (v : V) :
    CState × Option LErr :=
  match contStop B g st (some v) with
  | (st1, some e) => (st1, some e)
  | (st1, none) =>
      match g.successors v with
      | .error _ => (st1, some (.keyError v))
      | .ok descs => startSeq B g st1 (descs ++ [v])

/-- Membership in some value list, as the proofs use it. -/
def HasInc (es : Edges) (v : V) : Prop := ∃ p ∈ es, v ∈ p.2

/-- Condition under which the inner loop of `_toposort` moves `m` into the
pending set: no key other than `n` still has an edge into `m`. -/
def AddCond (es : Edges) (n m : V) : Prop := ∀ k, k ≠ n → m ∉ lkD es k

/-- Invariant of the outer `_toposort` loop relating the original dict
`es0` to the current dict `es`, pending set `rem` and output `ret`. -/
structure KInv (es0 es : Edges) (rem ret : List V) : Prop where
  hkeys : keyList es = keyList es0
  hval : ∀ k, lk es k = if k ∈ ret then (lk es0 k).map (fun _ => []) else lk es0 k
  hsorted : rem.Chain' (· < ·)
  hretnd : ret.Nodup
  hdisj : ∀ x ∈ rem, x ∉ ret
  hremA : ∀ x ∈ rem, ¬ HasInc es x
  hretB : ∀ x ∈ ret, ¬ HasInc es x
  hD : ∀ x, (x ∈ keyList es0 ∨ x ∈ childList es0) → ¬ HasInc es x →
    x ∈ ret ∨ x ∈ rem
  hE1 : ∀ v w, edgeOf es0 v w → w ∈ rem → v ∈ ret
  hE2 : ∀ v w, edgeOf es0 v w → w ∈ ret → v ∈ ret ∧ idx ret v < idx ret w
  hremsub : ∀ x ∈ rem, x ∈ keyList es0 ∨ x ∈ childList es0
  hretsub : ∀ x ∈ ret, x ∈ keyList es0 ∨ x ∈ childList es0

/-- `_toposort` run on the full fuel budget: abbreviation for its raw
result. -/
def kahnRun (es : Edges) : Edges × List V :=
  kahnLoop (totalEdges es + (keyList es).length + 1) es (initRem es) []

/-- `Graph.vertices()`: the dict keys. -/
def Graph.vertices (g : Graph) : List V := keyList g.edges

/-- The dict built by `Graph.add(v, w)` before the sort commits. -/
def addEdgeEdges (g : Graph) (v w : V) : Edges :=
  let es1 := if hasKey g.edges v then updVal g.edges v (fun l => l ++ [w])
             else g.edges ++ [(v, [w])]
  if hasKey es1 w then es1 else es1 ++ [(w, [])]

/-- Observable graph after `AddEdge`, with the exception semantics of the
mutator: on `CycleDetected` the caller still holds the unchanged graph. -/
def addEdgeState (g : Graph) (v w : V) : Graph :=
  match g.addEdge v w with
  | .ok g' => g'
  | .error _ => g

/-- Two dicts with the same keys and the same per-key value membership. -/
def MemEq (es1 es2 : Edges) : Prop :=
  keyList es1 = keyList es2 ∧ ∀ k x, x ∈ lkD es1 k ↔ x ∈ lkD es2 k

/-! ## Basic lemmas about the dict and sorted-set models -/

theorem lk_cons (a : V) (b : List V) (es : Edges) (k : V) :
    lk ((a, b) :: es) k = if a = k then some b else lk es k := rfl

theorem lk_eq_none (es : Edges) (v : V) : lk es v = none ↔ v ∉ keyList es := by
  induction es with
  | nil => simp [lk, keyList]
  | cons p es ih =>
      obtain ⟨k, l⟩ := p
      by_cases h : k = v
      · subst h; simp [lk, keyList]
      · simp only [lk, if_neg h, keyList, List.map_cons, List.mem_cons, ih]
        constructor
        · intro hm h1
          rcases h1 with h1 | h1
          · exact h h1.symm
          · exact hm h1
        · intro hm h1
          exact hm (Or.inr h1)

theorem lk_isSome_iff (es : Edges) (v : V) : (lk es v).isSome ↔ v ∈ keyList es := by
  rw [Option.isSome_iff_ne_none]
  constructor
  · intro h; by_contra hm; exact h ((lk_eq_none es v).mpr hm)
  · intro h hn; exact ((lk_eq_none es v).mp hn) h

theorem lk_mem_of_some {es : Edges} {v : V} {l : List V} (h : lk es v = some l) :
    (v, l) ∈ es := by
  induction es with
  | nil => simp [lk] at h
  | cons p es ih =>
      obtain ⟨k, l'⟩ := p
      by_cases hk : k = v
      · subst hk
        rw [lk_cons, if_pos rfl] at h
        obtain rfl : l' = l := Option.some.inj h
        exact List.mem_cons_self _ _
      · rw [lk_cons, if_neg hk] at h
        exact List.mem_cons_of_mem _ (ih h)

theorem lk_of_mem {es : Edges} (hnd : (keyList es).Nodup) {v : V} {l : List V}
    (h : (v, l) ∈ es) : lk es v = some l := by
  induction es with
  | nil => simp at h
  | cons p es ih =>
      obtain ⟨k, l'⟩ := p
      simp only [keyList, List.map_cons, List.nodup_cons] at hnd
      rcases List.mem_cons.mp h with h | h
      · rw [Prod.mk.injEq] at h
        obtain ⟨h1, h2⟩ := h
        subst h1; subst h2
        simp [lk]
      · have hkv : k ≠ v := by
          intro hkv
          subst hkv
          exact hnd.1 (List.mem_map.mpr ⟨(k, l), h, rfl⟩)
        simp only [lk, if_neg hkv]
        exact ih hnd.2 h

theorem keyList_updVal (es : Edges) (n : V) (f : List V → List V) :
    keyList (updVal es n f) = keyList es := by
  induction es with
  | nil => rfl
  | cons p es ih =>
      obtain ⟨k, l⟩ := p
      by_cases h : k = n
      · rw [show updVal ((k, l) :: es) n f = (k, f l) :: updVal es n f by
          simp [updVal, h]]
        simpa [keyList] using ih
      · rw [show updVal ((k, l) :: es) n f = (k, l) :: updVal es n f by
          simp [updVal, h]]
        simpa [keyList] using ih

theorem lk_updVal (es : Edges) (n : V) (f : List V → List V) (k : V) :
    lk (updVal es n f) k = if k = n then (lk es n).map f else lk es k := by
  induction es with
  | nil => by_cases h : k = n <;> simp [lk, updVal, h]
  | cons p es ih =>
      obtain ⟨k', l⟩ := p
      by_cases h1 : k' = n
      · subst h1
        rw [show updVal ((k', l) :: es) k' f = (k', f l) :: updVal es k' f by
          simp [updVal]]
        by_cases h2 : k' = k
        · subst h2
          rw [lk_cons, if_pos rfl, lk_cons, if_pos rfl, if_pos rfl]
          simp
        · rw [lk_cons, if_neg h2, ih]
          have hk : ¬ (k = k') := fun h => h2 h.symm
          rw [if_neg hk, if_neg hk, lk_cons, if_neg h2]
      · rw [show updVal ((k', l) :: es) n f = (k', l) :: updVal es n f by
          simp [updVal, h1]]
        by_cases h2 : k' = k
        · subst h2
          have hk : ¬ (k' = n) := h1
          rw [lk_cons, if_pos rfl, if_neg hk, lk_cons, if_pos rfl]
        · rw [lk_cons, if_neg h2, ih]
          by_cases h3 : k = n
          · rw [if_pos h3, if_pos h3, lk_cons, if_neg h1]
          · rw [if_neg h3, if_neg h3, lk_cons, if_neg h2]

theorem hasInc_any (es : Edges) (v : V) :
    es.any (fun p => v ∈ p.2) = true ↔ HasInc es v := by
  rw [List.any_eq_true]
  constructor
  · rintro ⟨p, hp, h⟩; exact ⟨p, hp, by simpa using h⟩
  · rintro ⟨p, hp, h⟩; exact ⟨p, hp, by simpa using h⟩

theorem noIncomingB_iff (es : Edges) (v : V) :
    noIncomingB es v = true ↔ ¬ HasInc es v := by
  rw [noIncomingB, Bool.not_eq_true', ← Bool.not_eq_true, not_iff_not]
  exact hasInc_any es v

theorem mem_childList_iff (es : Edges) (v : V) :
    v ∈ childList es ↔ HasInc es v := by
  rw [childList, List.mem_flatten]
  constructor
  · rintro ⟨l, hl, hv⟩
    obtain ⟨p, hp, rfl⟩ := List.mem_map.mp hl
    exact ⟨p, hp, hv⟩
  · rintro ⟨p, hp, hv⟩
    exact ⟨p.2, List.mem_map.mpr ⟨p, hp, rfl⟩, hv⟩

theorem hasInc_mono {es es' : Edges} (_hk : keyList es' = keyList es)
    (h : ∀ k, ∀ x, x ∈ lkD es' k → x ∈ lkD es k) {v : V}
    (hv : HasInc es' v) (hnd : (keyList es').Nodup) : HasInc es v := by
  obtain ⟨p, hp, hvp⟩ := hv
  have hlk : lk es' p.1 = some p.2 := lk_of_mem hnd hp
  have : v ∈ lkD es' p.1 := by simp [lkD, hlk, hvp]
  have hv2 : v ∈ lkD es p.1 := h _ _ this
  simp only [lkD] at hv2
  cases hl : lk es p.1 with
  | none => simp [hl] at hv2
  | some l => exact ⟨(p.1, l), lk_mem_of_some hl, by simpa [hl] using hv2⟩

/-! ### Strictly sorted lists -/

theorem sinsert_mem (m x : V) (l : List V) : x ∈ sinsert m l ↔ x = m ∨ x ∈ l := by
  induction l with
  | nil => simp [sinsert]
  | cons y ys ih =>
      by_cases h1 : m < y
      · rw [show sinsert m (y :: ys) = m :: y :: ys by simp [sinsert, h1]]
        simp only [List.mem_cons]
      · by_cases h2 : m = y
        · subst h2
          rw [show sinsert m (m :: ys) = m :: ys by simp [sinsert, h1]]
          simp only [List.mem_cons]
          tauto
        · rw [show sinsert m (y :: ys) = y :: sinsert m ys by simp [sinsert, h1, h2]]
          simp only [List.mem_cons, ih]
          tauto

theorem sinsert_head_lt {y m : V} (hym : y < m) (ys : List V)
    (hy : ∀ b ∈ ys.head?, y < b) : ∀ b ∈ (sinsert m ys).head?, y < b := by
  cases ys with
  | nil => simpa [sinsert] using hym
  | cons z zs =>
      by_cases h1 : m < z
      · simpa [sinsert, h1] using hym
      · by_cases h2 : m = z
        · simpa [sinsert, h1, h2] using hy
        · simpa [sinsert, h1, h2] using hy

theorem sinsert_sorted {l : List V} (h : l.Chain' (· < ·)) (m : V) :
    (sinsert m l).Chain' (· < ·) := by
  induction l with
  | nil => simp [sinsert]
  | cons y ys ih =>
      rw [List.chain'_cons'] at h
      by_cases h1 : m < y
      · rw [show sinsert m (y :: ys) = m :: y :: ys by simp [sinsert, h1]]
        exact List.chain'_cons'.mpr ⟨by simpa using h1, List.chain'_cons'.mpr h⟩
      · by_cases h2 : m = y
        · rw [show sinsert m (y :: ys) = y :: ys by simp [sinsert, h1, h2]]
          exact List.chain'_cons'.mpr h
        · have hym : y < m :=
            Nat.lt_of_le_of_ne (Nat.le_of_not_lt h1) (fun h => h2 h.symm)
          rw [show sinsert m (y :: ys) = y :: sinsert m ys by simp [sinsert, h1, h2]]
          exact List.chain'_cons'.mpr ⟨sinsert_head_lt hym ys h.1, ih h.2⟩

theorem sinsert_length (m : V) (l : List V) :
    (sinsert m l).length ≤ l.length + 1 := by
  induction l with
  | nil => simp [sinsert]
  | cons y ys ih =>
      by_cases h1 : m < y
      · simp [sinsert, h1]
      · by_cases h2 : m = y
        · simp [sinsert, h1, h2]
        · rw [show sinsert m (y :: ys) = y :: sinsert m ys by simp [sinsert, h1, h2]]
          simpa using ih

theorem sorted_pairwise {l : List V} (h : l.Chain' (· < ·)) :
    l.Pairwise (· < ·) := List.chain'_iff_pairwise.mp h

theorem sorted_nodup {l : List V} (h : l.Chain' (· < ·)) : l.Nodup :=
  (sorted_pairwise h).imp Nat.ne_of_lt

theorem sorted_ext : ∀ {l1 l2 : List V}, l1.Chain' (· < ·) → l2.Chain' (· < ·) →
    (∀ x, x ∈ l1 ↔ x ∈ l2) → l1 = l2 := by
  intro l1
  induction l1 with
  | nil =>
      intro l2 _ _ hm
      cases l2 with
      | nil => rfl
      | cons y ys => exact absurd ((hm y).mpr (List.mem_cons_self y ys)) (by simp)
  | cons x xs ih =>
      intro l2 h1 h2 hm
      cases l2 with
      | nil => exact absurd ((hm x).mp (List.mem_cons_self x xs)) (by simp)
      | cons y ys =>
          have hp1 := sorted_pairwise h1
          have hp2 := sorted_pairwise h2
          have hxy : x = y := by
            rcases List.mem_cons.mp ((hm x).mp (List.mem_cons_self x xs)) with h | h
            · exact h
            · rcases List.mem_cons.mp ((hm y).mpr (List.mem_cons_self y ys)) with h' | h'
              · exact h'.symm
              · have hyx : y < x := (List.pairwise_cons.mp hp2).1 x h
                have hxyl : x < y := (List.pairwise_cons.mp hp1).1 y h'
                exact absurd (hxyl.trans hyx) (lt_irrefl x)
          subst hxy
          have htail : ∀ z, z ∈ xs ↔ z ∈ ys := by
            intro z
            constructor
            · intro hz
              have hxz : x < z := (List.pairwise_cons.mp hp1).1 z hz
              rcases List.mem_cons.mp ((hm z).mp (List.mem_cons_of_mem x hz)) with h | h
              · exact absurd (h ▸ hxz) (lt_irrefl x)
              · exact h
            · intro hz
              have hxz : x < z := (List.pairwise_cons.mp hp2).1 z hz
              rcases List.mem_cons.mp ((hm z).mpr (List.mem_cons_of_mem x hz)) with h | h
              · exact absurd (h ▸ hxz) (lt_irrefl x)
              · exact h
          rw [ih (List.chain'_cons'.mp h1).2 (List.chain'_cons'.mp h2).2 htail]

theorem sortDedup_mem (l : List V) (x : V) : x ∈ sortDedup l ↔ x ∈ l := by
  induction l with
  | nil => simp [sortDedup]
  | cons y ys ih =>
      simp only [sortDedup, List.foldr_cons]
      rw [sinsert_mem]
      simp [sortDedup] at ih
      simp [ih]

theorem sortDedup_sorted (l : List V) : (sortDedup l).Chain' (· < ·) := by
  induction l with
  | nil => simp [sortDedup]
  | cons y ys ih => exact sinsert_sorted ih y

/-! ### More about `updVal` -/

theorem updVal_updVal (es : Edges) (n : V) (f g : List V → List V) :
    updVal (updVal es n f) n g = updVal es n (fun l => g (f l)) := by
  induction es with
  | nil => rfl
  | cons p es ih =>
      obtain ⟨k, l⟩ := p
      by_cases h : k = n
      · simp [updVal, h, ih]
      · simp [updVal, h, ih]

theorem updVal_eq_self {es : Edges} (hnd : (keyList es).Nodup) {n : V} {c : List V}
    (hc : lk es n = some c) {f : List V → List V} (hf : f c = c) :
    updVal es n f = es := by
  induction es with
  | nil => rfl
  | cons p es ih =>
      obtain ⟨k, l⟩ := p
      simp only [keyList, List.map_cons, List.nodup_cons] at hnd
      by_cases h : k = n
      · subst h
        rw [lk_cons, if_pos rfl] at hc
        obtain rfl : l = c := Option.some.inj hc
        have : updVal es k f = es := by
          have hnone : lk es k = none :=
            (lk_eq_none es k).mpr (by simpa [keyList] using hnd.1)
          clear ih hnd hc
          induction es with
          | nil => rfl
          | cons q es ihq =>
              obtain ⟨k', l'⟩ := q
              by_cases hq : k' = k
              · subst hq
                rw [lk_cons, if_pos rfl] at hnone
                exact absurd hnone (by simp)
              · rw [lk_cons, if_neg hq] at hnone
                simp [updVal, hq, ihq hnone]
        simp [updVal, hf, this]
      · rw [lk_cons, if_neg h] at hc
        simp [updVal, h, ih hnd.2 hc]

theorem hasInc_iff_lkD {es : Edges} (hnd : (keyList es).Nodup) (x : V) :
    HasInc es x ↔ ∃ k, x ∈ lkD es k := by
  constructor
  · rintro ⟨p, hp, hx⟩
    exact ⟨p.1, by simp [lkD, lk_of_mem hnd hp, hx]⟩
  · rintro ⟨k, hx⟩
    simp only [lkD] at hx
    cases hl : lk es k with
    | none => simp [hl] at hx
    | some l => exact ⟨(k, l), lk_mem_of_some hl, by simpa [hl] using hx⟩

theorem addCond_updVal (es : Edges) (n : V) (f : List V → List V) (m : V) :
    AddCond (updVal es n f) n m ↔ AddCond es n m := by
  unfold AddCond
  constructor
  · intro h k hk
    have := h k hk
    rwa [lkD, lk_updVal, if_neg hk] at this
  · intro h k hk
    rw [lkD, lk_updVal, if_neg hk]
    exact h k hk

theorem updVal_absent {es : Edges} {n : V} (h : lk es n = none)
    (f : List V → List V) : updVal es n f = es := by
  induction es with
  | nil => rfl
  | cons q es ihq =>
      obtain ⟨k', l'⟩ := q
      by_cases hq : k' = n
      · subst hq
        rw [lk_cons, if_pos rfl] at h
        exact absurd h (by simp)
      · rw [lk_cons, if_neg hq] at h
        simp [updVal, hq, ihq h]

theorem totalEdges_updVal_empty {es : Edges} (hnd : (keyList es).Nodup)
    {n : V} {l : List V} (h : lk es n = some l) :
    totalEdges (updVal es n (fun _ => [])) + l.length = totalEdges es := by
  induction es with
  | nil => simp [lk] at h
  | cons q es ihq =>
      obtain ⟨k', l'⟩ := q
      simp only [keyList, List.map_cons, List.nodup_cons] at hnd
      by_cases hq : k' = n
      · subst hq
        rw [lk_cons, if_pos rfl] at h
        have hl : l' = l := Option.some.inj h
        subst hl
        have habs : lk es k' = none :=
          (lk_eq_none es k').mpr (by simpa [keyList] using hnd.1)
        rw [show updVal ((k', l') :: es) k' (fun _ => []) =
              (k', ([] : List V)) :: updVal es k' (fun _ => []) by simp [updVal]]
        rw [updVal_absent habs]
        simp [totalEdges]
        omega
      · rw [lk_cons, if_neg hq] at h
        rw [show updVal ((k', l') :: es) n (fun _ => []) =
              (k', l') :: updVal es n (fun _ => []) by simp [updVal, hq]]
        have := ihq hnd.2 h
        simp only [totalEdges, List.map_cons, List.sum_cons] at this ⊢
        omega

/-! ### Positions in a list -/

theorem idx_lt_length {L : List V} {x : V} (h : x ∈ L) : idx L x < L.length := by
  induction L with
  | nil => simp at h
  | cons y ys ih =>
      by_cases hy : y = x
      · simp [idx, hy]
      · rcases List.mem_cons.mp h with h1 | h1
        · exact absurd h1.symm hy
        · simp only [idx, if_neg hy, List.length_cons]
          exact Nat.succ_lt_succ (ih h1)

theorem idx_append_mem {L : List V} {x : V} (h : x ∈ L) (y : V) :
    idx (L ++ [y]) x = idx L x := by
  induction L with
  | nil => simp at h
  | cons z zs ih =>
      by_cases hz : z = x
      · simp [idx, hz]
      · rcases List.mem_cons.mp h with h1 | h1
        · exact absurd h1.symm hz
        · simp only [List.cons_append, idx, if_neg hz]
          exact congrArg (fun t => t + 1) (ih h1)

theorem idx_append_self {L : List V} {n : V} (h : n ∉ L) :
    idx (L ++ [n]) n = L.length := by
  induction L with
  | nil => simp [idx]
  | cons z zs ih =>
      have hz : z ≠ n := fun hzn => h (hzn ▸ List.mem_cons_self z zs)
      simp only [List.cons_append, idx, if_neg hz, List.length_cons]
      exact congrArg (fun t => t + 1) (ih (fun hm => h (List.mem_cons_of_mem z hm)))

theorem idx_inj {L : List V} {x y : V} (hx : x ∈ L) (hy : y ∈ L)
    (h : idx L x = idx L y) : x = y := by
  induction L with
  | nil => simp at hx
  | cons z zs ih =>
      by_cases hzx : z = x
      · by_cases hzy : z = y
        · exact hzx ▸ hzy
        · rw [idx, if_pos hzx, idx, if_neg hzy] at h
          exact absurd h.symm (Nat.succ_ne_zero _)
      · by_cases hzy : z = y
        · rw [idx, if_neg hzx, idx, if_pos hzy] at h
          exact absurd h (Nat.succ_ne_zero _)
        · rw [idx, if_neg hzx, idx, if_neg hzy] at h
          rcases List.mem_cons.mp hx with h1 | h1
          · exact absurd h1.symm hzx
          · rcases List.mem_cons.mp hy with h2 | h2
            · exact absurd h2.symm hzy
            · exact ih h1 h2 (Nat.succ_injective h)

/-! ### Characterisation of the inner loop of `_toposort` -/

/-- Net effect of the inner loop on one processed vertex `n`: its list is
emptied and exactly the children with no other remaining incoming edge
join the (sorted) pending set. -/
theorem remChildren_spec (n : V) :
    ∀ (l : List V) (es : Edges) (rem c : List V),
      (keyList es).Nodup → lk es n = some c → c.Perm l →
      rem.Chain' (· < ·) →
      (remChildren es n rem l).1 = updVal es n (fun _ => []) ∧
      (remChildren es n rem l).2.Chain' (· < ·) ∧
      (∀ x, x ∈ (remChildren es n rem l).2 ↔
        x ∈ rem ∨ (x ∈ l ∧ AddCond es n x)) ∧
      (remChildren es n rem l).2.length ≤ rem.length + l.length := by
  intro l
  induction l with
  | nil =>
      intro es rem c hnd hc hperm hsorted
      have hc0 : c = [] := List.Perm.eq_nil hperm
      subst hc0
      refine ⟨?_, hsorted, by simp [remChildren], by simp [remChildren]⟩
      rw [remChildren]
      exact (updVal_eq_self hnd hc rfl).symm
  | cons m ms ih =>
      intro es rem c hnd hc hperm hsorted
      rw [remChildren]
      set es' := updVal es n (fun l => l.erase m) with hes'
      have hnd' : (keyList es').Nodup := by rwa [hes', keyList_updVal]
      have hc' : lk es' n = some (c.erase m) := by
        rw [hes', lk_updVal, if_pos rfl, hc]; rfl
      have hperm' : (c.erase m).Perm ms := by
        have h1 : (c.erase m).Perm ((m :: ms).erase m) := hperm.erase m
        rwa [List.erase_cons_head] at h1
      have hmc : m ∈ c := hperm.mem_iff.mpr (List.mem_cons_self m ms)
      -- analysis of the incoming-edge test for m
      have hInc : HasInc es' m ↔ (m ∈ c.erase m ∨ ¬ AddCond es n m) := by
        rw [hasInc_iff_lkD hnd' m]
        constructor
        · rintro ⟨k, hk⟩
          by_cases hkn : k = n
          · subst hkn
            rw [lkD, hc'] at hk
            exact Or.inl (by simpa using hk)
          · rw [lkD, hes', lk_updVal, if_neg hkn] at hk
            exact Or.inr (fun hA => hA k hkn (by simpa [lkD] using hk))
        · rintro (h | h)
          · exact ⟨n, by simp [lkD, hc', h]⟩
          · rw [AddCond] at h
            push_neg at h
            obtain ⟨k, hkn, hk⟩ := h
            exact ⟨k, by rwa [lkD, hes', lk_updVal, if_neg hkn]⟩
      by_cases htest : es'.any (fun p => m ∈ p.2)
      · -- m still has an incoming edge somewhere: not enqueued now
        rw [if_pos htest]
        have hIncT : m ∈ c.erase m ∨ ¬ AddCond es n m :=
          hInc.mp ((hasInc_any es' m).mp htest)
        obtain ⟨h1, h2, h3, h4⟩ := ih es' rem (c.erase m) hnd' hc' hperm' hsorted
        refine ⟨?_, h2, ?_, by simp only [List.length_cons]; omega⟩
        · rw [h1, hes', updVal_updVal]
        · intro x
          rw [h3 x]
          have hAC : ∀ y, AddCond es' n y ↔ AddCond es n y := by
            intro y
            rw [hes']
            exact addCond_updVal es n (fun l => l.erase m) y
          rw [hAC]
          constructor
          · rintro (h | ⟨hx, hA⟩)
            · exact Or.inl h
            · exact Or.inr ⟨List.mem_cons_of_mem m hx, hA⟩
          · rintro (h | ⟨hx, hA⟩)
            · exact Or.inl h
            · rcases List.mem_cons.mp hx with rfl | hx'
              · -- x = m but m is not enqueued on this path:
                -- either more copies of m are pending, or AddCond fails
                rcases hIncT with hcopy | hnA
                · exact Or.inr ⟨hperm'.mem_iff.mp hcopy, hA⟩
                · exact absurd hA hnA
              · exact Or.inr ⟨hx', hA⟩
      · -- no incoming edge left: m joins the pending set
        rw [if_neg htest]
        have hIncF : ¬ (m ∈ c.erase m ∨ ¬ AddCond es n m) := by
          intro hcon
          exact htest ((hasInc_any es' m).mpr (hInc.mpr hcon))
        push_neg at hIncF
        obtain ⟨hnotc, hA'⟩ := hIncF
        have hmns : m ∉ ms := fun hmem => hnotc (hperm'.mem_iff.mpr hmem)
        obtain ⟨h1, h2, h3, h4⟩ :=
          ih es' (sinsert m rem) (c.erase m) hnd' hc' hperm' (sinsert_sorted hsorted m)
        refine ⟨?_, h2, ?_, ?_⟩
        · rw [h1, hes', updVal_updVal]
        · intro x
          rw [h3 x, sinsert_mem]
          have hAC : ∀ y, AddCond es' n y ↔ AddCond es n y := by
            intro y
            rw [hes']
            exact addCond_updVal es n (fun l => l.erase m) y
          rw [hAC]
          constructor
          · rintro ((hxm | h) | ⟨hx, hAx⟩)
            · exact hxm ▸ Or.inr ⟨List.mem_cons_self _ _, hxm ▸ hA'⟩
            · exact Or.inl h
            · exact Or.inr ⟨List.mem_cons_of_mem m hx, hAx⟩
          · rintro (h | ⟨hx, hAx⟩)
            · exact Or.inl (Or.inr h)
            · rcases List.mem_cons.mp hx with rfl | hx'
              · exact Or.inl (Or.inl rfl)
              · exact Or.inr ⟨hx', hAx⟩
        · have := sinsert_length m rem
          simp only [List.length_cons]
          omega

/-! ### The Kahn-loop invariant -/

theorem hasInc_updVal_empty {es : Edges} (hnd : (keyList es).Nodup) (n x : V) :
    HasInc (updVal es n (fun _ => [])) x ↔ ∃ k, k ≠ n ∧ x ∈ lkD es k := by
  have hnd' : (keyList (updVal es n (fun _ => []))).Nodup := by
    rwa [keyList_updVal]
  rw [hasInc_iff_lkD hnd']
  constructor
  · rintro ⟨k, hk⟩
    by_cases hkn : k = n
    · subst hkn
      rw [lkD, lk_updVal, if_pos rfl] at hk
      cases hl : lk es k with
      | none => rw [hl] at hk; simp at hk
      | some l => rw [hl] at hk; simp at hk
    · rw [lkD, lk_updVal, if_neg hkn] at hk
      exact ⟨k, hkn, hk⟩
  · rintro ⟨k, hkn, hk⟩
    exact ⟨k, by rwa [lkD, lk_updVal, if_neg hkn]⟩

theorem not_hasInc_updVal_empty {es : Edges} (hnd : (keyList es).Nodup) (n x : V) :
    ¬ HasInc (updVal es n (fun _ => [])) x ↔ AddCond es n x := by
  rw [hasInc_updVal_empty hnd]
  constructor
  · intro h k hkn hx
    exact h ⟨k, hkn, hx⟩
  · rintro h ⟨k, hkn, hx⟩
    exact h k hkn hx

/-- One step of the outer loop when the popped vertex is not a key. -/
theorem kstep_none {es0 es : Edges} {rem' ret : List V} {n : V}
    (hinv : KInv es0 es (n :: rem') ret) (hlk : lk es n = none) :
    KInv es0 es rem' (ret ++ [n]) := by
  obtain ⟨hkeys, hval, hsorted, hretnd, hdisj, hremA, hretB, hD, hE1, hE2,
    hremsub, hretsub⟩ := hinv
  have hnmem : n ∈ n :: rem' := List.mem_cons_self n rem'
  have hnret : n ∉ ret := hdisj n hnmem
  have hrem'lt : ∀ x ∈ rem', n < x := by
    intro x hx
    exact (List.pairwise_cons.mp (sorted_pairwise hsorted)).1 x hx
  have hnrem' : n ∉ rem' := fun h => lt_irrefl n (hrem'lt n h)
  have hmemret' : ∀ x, x ∈ ret ++ [n] ↔ x ∈ ret ∨ x = n := by
    intro x; simp [List.mem_append]
  have hlk0 : lk es0 n = none := by
    have := hval n
    rw [if_neg hnret] at this
    rw [← this, hlk]
  constructor
  case hkeys => exact hkeys
  case hval =>
      intro k
      by_cases hk : k = n
      · subst hk
        rw [if_pos (by simp [hmemret'])]
        rw [hlk, hlk0]
        rfl
      · rw [hval k]
        by_cases hkr : k ∈ ret
        · rw [if_pos hkr, if_pos ((hmemret' k).mpr (Or.inl hkr))]
        · rw [if_neg hkr, if_neg (by
            intro hc
            rcases (hmemret' k).mp hc with h | h
            · exact hkr h
            · exact hk h)]
  case hsorted => exact (List.chain'_cons'.mp hsorted).2
  case hretnd =>
      rw [List.nodup_append]
      exact ⟨hretnd, List.nodup_singleton n, by
        intro a ha hb
        rw [List.mem_singleton] at hb
        exact hnret (hb ▸ ha)⟩
  case hdisj =>
      intro x hx hc
      rcases (hmemret' x).mp hc with h | h
      · exact hdisj x (List.mem_cons_of_mem n hx) h
      · exact hnrem' (h ▸ hx)
  case hremA => exact fun x hx => hremA x (List.mem_cons_of_mem n hx)
  case hretB =>
      intro x hx
      rcases (hmemret' x).mp hx with h | h
      · exact hretB x h
      · exact h ▸ hremA n hnmem
  case hD =>
      intro x hx hni
      rcases hD x hx hni with h | h
      · exact Or.inl ((hmemret' x).mpr (Or.inl h))
      · rcases List.mem_cons.mp h with h1 | h1
        · exact Or.inl ((hmemret' x).mpr (Or.inr h1))
        · exact Or.inr h1
  case hE1 =>
      intro v w hvw hw
      exact (hmemret' v).mpr (Or.inl (hE1 v w hvw (List.mem_cons_of_mem n hw)))
  case hE2 =>
      intro v w hvw hw
      rcases (hmemret' w).mp hw with h | h
      · obtain ⟨hv, hidx⟩ := hE2 v w hvw h
        refine ⟨(hmemret' v).mpr (Or.inl hv), ?_⟩
        rw [idx_append_mem hv, idx_append_mem h]
        exact hidx
      · by_cases hv : v ∈ ret
        · refine ⟨(hmemret' v).mpr (Or.inl hv), ?_⟩
          rw [idx_append_mem hv, h, idx_append_self hnret]
          exact idx_lt_length hv
        · exfalso
          obtain ⟨l0, hl0, hwl0⟩ := hvw
          have hv0 := hval v
          rw [if_neg hv] at hv0
          have hlkv : lk es v = some l0 := hv0.trans hl0
          exact hremA _ hnmem ⟨(v, l0), lk_mem_of_some hlkv, h ▸ hwl0⟩
  case hremsub => exact fun x hx => hremsub x (List.mem_cons_of_mem n hx)
  case hretsub =>
      intro x hx
      rcases (hmemret' x).mp hx with h | h
      · exact hretsub x h
      · exact h ▸ hremsub n hnmem

/-- One step of the outer loop when the popped vertex is a key with
outgoing list `l`. -/
theorem kstep_some {es0 es : Edges} {rem' ret : List V} {n : V} {l : List V}
    (hnd0 : (keyList es0).Nodup)
    (hinv : KInv es0 es (n :: rem') ret) (hlk : lk es n = some l) :
    KInv es0 (remChildren es n rem' l).1 (remChildren es n rem' l).2 (ret ++ [n]) ∧
    totalEdges (remChildren es n rem' l).1 + l.length = totalEdges es ∧
    (remChildren es n rem' l).2.length ≤ rem'.length + l.length := by
  obtain ⟨hkeys, hval, hsorted, hretnd, hdisj, hremA, hretB, hD, hE1, hE2,
    hremsub, hretsub⟩ := hinv
  have hnd : (keyList es).Nodup := hkeys ▸ hnd0
  have hrem'sorted := (List.chain'_cons'.mp hsorted).2
  obtain ⟨h1, h2, h3, h4⟩ :=
    remChildren_spec n l es rem' l hnd hlk (List.Perm.refl l) hrem'sorted
  have hnmem : n ∈ n :: rem' := List.mem_cons_self n rem'
  have hnret : n ∉ ret := hdisj n hnmem
  have hrem'lt : ∀ x ∈ rem', n < x := by
    intro x hx
    exact (List.pairwise_cons.mp (sorted_pairwise hsorted)).1 x hx
  have hnrem' : n ∉ rem' := fun h => lt_irrefl n (hrem'lt n h)
  have hmemret' : ∀ x, x ∈ ret ++ [n] ↔ x ∈ ret ∨ x = n := by
    intro x; simp [List.mem_append]
  have hnkeys : n ∈ keyList es := (lk_isSome_iff es n).mp (by simp [hlk])
  have hlk0 : lk es0 n = some l := by
    have := hval n
    rw [if_neg hnret] at this
    rw [← this, hlk]
  have hlmem : ∀ x ∈ l, HasInc es x :=
    fun x hx => ⟨(n, l), lk_mem_of_some hlk, hx⟩
  have hlchild : ∀ x ∈ l, x ∈ childList es0 :=
    fun x hx => (mem_childList_iff es0 x).mpr ⟨(n, l), lk_mem_of_some hlk0, hx⟩
  have hmono : ∀ x, HasInc (remChildren es n rem' l).1 x → HasInc es x := by
    intro x hx
    rw [h1] at hx
    obtain ⟨k, hkn, hk⟩ := (hasInc_updVal_empty hnd n x).mp hx
    exact (hasInc_iff_lkD hnd x).mpr ⟨k, hk⟩
  have hni_iff : ∀ x, ¬ HasInc (remChildren es n rem' l).1 x ↔ AddCond es n x := by
    intro x
    rw [h1]
    exact not_hasInc_updVal_empty hnd n x
  refine ⟨?_, ?_, h4⟩
  case refine_2 => rw [h1]; exact totalEdges_updVal_empty hnd hlk
  constructor
  case hkeys => rw [h1, keyList_updVal]; exact hkeys
  case hval =>
      intro k
      by_cases hk : k = n
      · subst hk
        rw [h1, lk_updVal, if_pos rfl, hlk, if_pos ((hmemret' k).mpr (Or.inr rfl)),
          hlk0]
      · rw [h1, lk_updVal, if_neg hk, hval k]
        by_cases hkr : k ∈ ret
        · rw [if_pos hkr, if_pos ((hmemret' k).mpr (Or.inl hkr))]
        · rw [if_neg hkr, if_neg (by
            intro hc
            rcases (hmemret' k).mp hc with h | h
            · exact hkr h
            · exact hk h)]
  case hsorted => exact h2
  case hretnd =>
      rw [List.nodup_append]
      exact ⟨hretnd, List.nodup_singleton n, by
        intro a ha hb
        rw [List.mem_singleton] at hb
        exact hnret (hb ▸ ha)⟩
  case hdisj =>
      intro x hx hc
      rcases (h3 x).mp hx with h | ⟨hxl, _⟩
      · rcases (hmemret' x).mp hc with hr | hr
        · exact hdisj x (List.mem_cons_of_mem n h) hr
        · exact hnrem' (hr ▸ h)
      · rcases (hmemret' x).mp hc with hr | hr
        · exact hretB x hr (hlmem x hxl)
        · exact hremA n hnmem (hr ▸ hlmem x hxl)
  case hremA =>
      intro x hx
      rcases (h3 x).mp hx with h | ⟨_, hA⟩
      · intro hc
        exact hremA x (List.mem_cons_of_mem n h) (hmono x hc)
      · exact (hni_iff x).mpr hA
  case hretB =>
      intro x hx
      rcases (hmemret' x).mp hx with h | h
      · intro hc; exact hretB x h (hmono x hc)
      · intro hc; exact hremA n hnmem (h ▸ hmono x hc)
  case hD =>
      intro x hx hni
      by_cases hIncx : HasInc es x
      · have hA : AddCond es n x := (hni_iff x).mp hni
        obtain ⟨k, hk⟩ := (hasInc_iff_lkD hnd x).mp hIncx
        have hkn : k = n := by
          by_contra hkn
          exact hA k hkn hk
        subst hkn
        rw [lkD, hlk] at hk
        exact Or.inr ((h3 x).mpr (Or.inr ⟨by simpa using hk, hA⟩))
      · rcases hD x hx hIncx with h | h
        · exact Or.inl ((hmemret' x).mpr (Or.inl h))
        · rcases List.mem_cons.mp h with h1 | h1
          · exact Or.inl ((hmemret' x).mpr (Or.inr h1))
          · exact Or.inr ((h3 x).mpr (Or.inl h1))
  case hE1 =>
      intro v w hvw hw
      rcases (h3 w).mp hw with h | ⟨hwl, hA⟩
      · exact (hmemret' v).mpr (Or.inl (hE1 v w hvw (List.mem_cons_of_mem n h)))
      · by_cases hv : v ∈ ret
        · exact (hmemret' v).mpr (Or.inl hv)
        · by_cases hvn : v = n
          · exact (hmemret' v).mpr (Or.inr hvn)
          · exfalso
            obtain ⟨l0, hl0, hwl0⟩ := hvw
            have hv0 := hval v
            rw [if_neg hv] at hv0
            have hlkv : lk es v = some l0 := hv0.trans hl0
            exact hA v hvn (by simp [lkD, hlkv, hwl0])
  case hE2 =>
      intro v w hvw hw
      rcases (hmemret' w).mp hw with h | h
      · obtain ⟨hv, hidx⟩ := hE2 v w hvw h
        refine ⟨(hmemret' v).mpr (Or.inl hv), ?_⟩
        rw [idx_append_mem hv, idx_append_mem h]
        exact hidx
      · by_cases hv : v ∈ ret
        · refine ⟨(hmemret' v).mpr (Or.inl hv), ?_⟩
          rw [idx_append_mem hv, h, idx_append_self hnret]
          exact idx_lt_length hv
        · exfalso
          obtain ⟨l0, hl0, hwl0⟩ := hvw
          have hv0 := hval v
          rw [if_neg hv] at hv0
          have hlkv : lk es v = some l0 := hv0.trans hl0
          exact hremA n hnmem ⟨(v, l0), lk_mem_of_some hlkv, h ▸ hwl0⟩
  case hremsub =>
      intro x hx
      rcases (h3 x).mp hx with h | ⟨hxl, _⟩
      · exact hremsub x (List.mem_cons_of_mem n h)
      · exact Or.inr (hlchild x hxl)
  case hretsub =>
      intro x hx
      rcases (hmemret' x).mp hx with h | h
      · exact hretsub x h
      · exact Or.inl (h ▸ (hkeys ▸ hnkeys))

/-- Running the outer loop with sufficient fuel always drains the pending
set and preserves the invariant. -/
theorem kahnLoop_final (es0 : Edges) (hnd0 : (keyList es0).Nodup) :
    ∀ fuel es rem ret, totalEdges es + rem.length ≤ fuel →
      KInv es0 es rem ret →
      KInv es0 (kahnLoop fuel es rem ret).1 [] (kahnLoop fuel es rem ret).2 := by
  intro fuel
  induction fuel with
  | zero =>
      intro es rem ret hfuel hinv
      cases rem with
      | nil => simpa [kahnLoop] using hinv
      | cons n rem' =>
          exfalso
          rw [List.length_cons] at hfuel
          omega
  | succ fuel ih =>
      intro es rem ret hfuel hinv
      cases rem with
      | nil => simpa [kahnLoop] using hinv
      | cons n rem' =>
          cases hlk : lk es n with
          | none =>
              rw [show kahnLoop (fuel + 1) es (n :: rem') ret =
                    kahnLoop fuel es rem' (ret ++ [n]) by
                simp [kahnLoop, hlk]]
              apply ih
              · rw [List.length_cons] at hfuel
                omega
              · exact kstep_none hinv hlk
          | some l =>
              obtain ⟨hinv', htot, hlen⟩ := kstep_some hnd0 hinv hlk
              rw [show kahnLoop (fuel + 1) es (n :: rem') ret =
                    kahnLoop fuel (remChildren es n rem' l).1
                      (remChildren es n rem' l).2 (ret ++ [n]) by
                simp [kahnLoop, hlk]]
              apply ih
              · rw [List.length_cons] at hfuel
                omega
              · exact hinv'

theorem mem_initRem (es : Edges) (x : V) :
    x ∈ initRem es ↔ x ∈ keyList es ∧ ¬ HasInc es x := by
  rw [initRem, sortDedup_mem, List.mem_filter, noIncomingB_iff]

theorem sortDedup_length (l : List V) : (sortDedup l).length ≤ l.length := by
  induction l with
  | nil => simp [sortDedup]
  | cons y ys ih =>
      have h1 := sinsert_length y (sortDedup ys)
      simp only [sortDedup, List.foldr_cons, List.length_cons] at *
      omega

/-- The invariant holds at loop entry. -/
theorem kinv_init (es0 : Edges) : KInv es0 es0 (initRem es0) [] := by
  constructor
  case hkeys => rfl
  case hval => intro k; simp
  case hsorted => exact sortDedup_sorted _
  case hretnd => exact List.nodup_nil
  case hdisj => intro x _ hc; simp at hc
  case hremA => intro x hx; exact ((mem_initRem es0 x).mp hx).2
  case hretB => intro x hx; simp at hx
  case hD =>
      intro x hx hni
      rcases hx with h | h
      · exact Or.inr ((mem_initRem es0 x).mpr ⟨h, hni⟩)
      · exact absurd ((mem_childList_iff es0 x).mp h) hni
  case hE1 =>
      intro v w hvw hw
      exfalso
      obtain ⟨l0, hl0, hwl0⟩ := hvw
      exact ((mem_initRem es0 w).mp hw).2 ⟨(v, l0), lk_mem_of_some hl0, hwl0⟩
  case hE2 => intro v w _ hw; simp at hw
  case hremsub => intro x hx; exact Or.inl ((mem_initRem es0 x).mp hx).1
  case hretsub => intro x hx; simp at hx

/-- A nonempty finite set in which every element has a predecessor inside
the set contains a cycle. -/
theorem cycle_of_closed_pred {r : V → V → Prop} (S : Finset V) (hne : S.Nonempty)
    (h : ∀ k ∈ S, ∃ e ∈ S, r e k) : ∃ z, Relation.TransGen r z z := by
  classical
  obtain ⟨k0, hk0⟩ := hne
  let f : Nat → {x // x ∈ S} := fun n =>
    n.rec ⟨k0, hk0⟩
      (fun _ prev => ⟨(h prev.1 prev.2).choose, (h prev.1 prev.2).choose_spec.1⟩)
  have hf : ∀ n, r (f (n + 1)).1 (f n).1 :=
    fun n => (h (f n).1 (f n).2).choose_spec.2
  have hchain : ∀ i j, i < j → Relation.TransGen r (f j).1 (f i).1 := by
    intro i j hij
    induction j with
    | zero => omega
    | succ j ihj =>
        by_cases hji : i = j
        · subst hji
          exact Relation.TransGen.single (hf i)
        · have hij' : i < j := by omega
          exact Relation.TransGen.head (hf j) (ihj hij')
  have hcard : Fintype.card {x // x ∈ S} < Fintype.card (Fin (S.card + 1)) := by
    simp [Fintype.card_coe]
  obtain ⟨a, b, hab, hfab⟩ :=
    Fintype.exists_ne_map_eq_of_card_lt (fun i : Fin (S.card + 1) => f i.1) hcard
  rcases Nat.lt_or_ge a.1 b.1 with hlt | hge
  · refine ⟨(f a.1).1, ?_⟩
    have hch := hchain a.1 b.1 hlt
    rwa [show (f b.1).1 = (f a.1).1 from congrArg Subtype.val hfab.symm] at hch
  · have hne' : b.1 < a.1 := by
      rcases Nat.lt_or_ge b.1 a.1 with h1 | h1
      · exact h1
      · exact absurd (Fin.ext (by omega)) hab
    refine ⟨(f b.1).1, ?_⟩
    have hch := hchain b.1 a.1 hne'
    rwa [show (f a.1).1 = (f b.1).1 from congrArg Subtype.val hfab] at hch

theorem toposort_eq_kahnRun (es : Edges) :
    toposort es = if (kahnRun es).1.any (fun p => p.2 ≠ []) then .error ()
                  else .ok (kahnRun es).2 := rfl

theorem kahnRun_kinv {es : Edges} (hnd : (keyList es).Nodup) :
    KInv es (kahnRun es).1 [] (kahnRun es).2 := by
  apply kahnLoop_final es hnd
  · have h1 : (initRem es).length ≤ (keyList es).length :=
      le_trans (sortDedup_length _) (List.length_filter_le _ _)
    omega
  · exact kinv_init es

/-- Soundness package for a successful `_toposort`: the output is
duplicate-free, covers every key and every edge endpoint, and places the
source of every edge strictly before its target. -/
theorem toposort_ok_spec {es : Edges} (hnd : (keyList es).Nodup) {ret : List V}
    (h : toposort es = .ok ret) :
    ret.Nodup ∧
    (∀ k ∈ keyList es, k ∈ ret) ∧
    (∀ x ∈ ret, x ∈ keyList es ∨ x ∈ childList es) ∧
    (∀ v w, edgeOf es v w → v ∈ ret ∧ w ∈ ret ∧ idx ret v < idx ret w) := by
  rw [toposort_eq_kahnRun] at h
  by_cases hc : (kahnRun es).1.any (fun p => p.2 ≠ [])
  · rw [if_pos hc] at h
    exact absurd h (by simp)
  · rw [if_neg hc] at h
    have hret : (kahnRun es).2 = ret := Except.ok.inj h
    subst hret
    obtain ⟨hkeys, hval, _, hretnd, _, _, _, hD, _, hE2, _, hretsub⟩ :=
      kahnRun_kinv hnd
    have hempty : ∀ p ∈ (kahnRun es).1, p.2 = [] := by
      intro p hp
      by_contra hne
      exact hc (List.any_eq_true.mpr ⟨p, hp, by simpa using hne⟩)
    have hni : ∀ x, ¬ HasInc (kahnRun es).1 x := by
      rintro x ⟨p, hp, hx⟩
      rw [hempty p hp] at hx
      simp at hx
    have hkeysub : ∀ k ∈ keyList es, k ∈ (kahnRun es).2 := by
      intro k hk
      rcases hD k (Or.inl hk) (hni k) with h1 | h1
      · exact h1
      · simp at h1
    refine ⟨hretnd, hkeysub, hretsub, ?_⟩
    intro v w hvw
    obtain ⟨l0, hl0, hwl0⟩ := hvw
    have hv : v ∈ (kahnRun es).2 := by
      by_contra hv
      have hval' := hval v
      rw [if_neg hv] at hval'
      have hlkv : lk (kahnRun es).1 v = some l0 := hval'.trans hl0
      have := hempty (v, l0) (lk_mem_of_some hlkv)
      simp only at this
      rw [this] at hwl0
      simp at hwl0
    have hwchild : w ∈ childList es :=
      (mem_childList_iff es w).mpr ⟨(v, l0), lk_mem_of_some hl0, hwl0⟩
    have hw : w ∈ (kahnRun es).2 := by
      rcases hD w (Or.inr hwchild) (hni w) with h1 | h1
      · exact h1
      · simp at h1
    obtain ⟨_, hidx⟩ := hE2 v w ⟨l0, hl0, hwl0⟩ hw
    exact ⟨hv, hw, hidx⟩

/-- Completeness: on an acyclic dict `_toposort` succeeds. -/
theorem toposort_ok_of_acyclic {es : Edges} (hnd : (keyList es).Nodup)
    (hacyc : Acyclic es) : toposort es = .ok (kahnRun es).2 := by
  classical
  rw [toposort_eq_kahnRun]
  by_cases hc : (kahnRun es).1.any (fun p => p.2 ≠ [])
  · exfalso
    obtain ⟨p, hp, hpne⟩ := List.any_eq_true.mp hc
    have hpne' : p.2 ≠ [] := by simpa using hpne
    obtain ⟨hkeys, hval, _, _, _, _, _, hD, _, _, _, _⟩ := kahnRun_kinv hnd
    have hnd1 : (keyList (kahnRun es).1).Nodup := by rwa [hkeys]
    have factB : ∀ q ∈ (kahnRun es).1, q.2 ≠ [] →
        q.1 ∉ (kahnRun es).2 ∧ q.1 ∈ keyList es ∧ lk es q.1 = some q.2 := by
      intro q hq hqne
      have hqk : q.1 ∈ keyList es := by
        rw [← hkeys]
        exact List.mem_map.mpr ⟨q, hq, rfl⟩
      have hlkq : lk (kahnRun es).1 q.1 = some q.2 := by
        have := lk_of_mem hnd1 (show (q.1, q.2) ∈ (kahnRun es).1 from hq)
        exact this
      have hqret : q.1 ∉ (kahnRun es).2 := by
        intro hmem
        have hval' := hval q.1
        rw [if_pos hmem] at hval'
        rw [hval'] at hlkq
        cases hes : lk es q.1 with
        | none => rw [hes] at hlkq; simp at hlkq
        | some c =>
            rw [hes] at hlkq
            exact hqne (Option.some.inj hlkq).symm
      have hval' := hval q.1
      rw [if_neg hqret] at hval'
      exact ⟨hqret, hqk, hval'.symm.trans hlkq⟩
    set S : Finset V :=
      (keyList es).toFinset.filter (fun k => k ∉ (kahnRun es).2) with hS
    have hSmem : ∀ k, k ∈ S ↔ k ∈ keyList es ∧ k ∉ (kahnRun es).2 := by
      intro k
      rw [hS, Finset.mem_filter, List.mem_toFinset]
    obtain ⟨hp1, hp2, _⟩ := factB p hp hpne'
    have hne : S.Nonempty := ⟨p.1, (hSmem p.1).mpr ⟨hp2, hp1⟩⟩
    have hclosed : ∀ k ∈ S, ∃ e ∈ S, edgeOf es e k := by
      intro k hk
      obtain ⟨hkk, hkret⟩ := (hSmem k).mp hk
      have hInck : HasInc (kahnRun es).1 k := by
        by_contra hni
        rcases hD k (Or.inl hkk) hni with h1 | h1
        · exact hkret h1
        · simp at h1
      obtain ⟨q, hq, hkq⟩ := hInck
      have hqne : q.2 ≠ [] := fun hq0 => by
        rw [hq0] at hkq
        simp at hkq
      obtain ⟨hq1, hq2, hq3⟩ := factB q hq hqne
      exact ⟨q.1, (hSmem q.1).mpr ⟨hq2, hq1⟩, ⟨q.2, hq3, hkq⟩⟩
    obtain ⟨z, hz⟩ := cycle_of_closed_pred S hne hclosed
    exact hacyc z hz
  · rw [if_neg hc]

/-- Soundness: a successful `_toposort` certifies acyclicity. -/
theorem acyclic_of_toposort_ok {es : Edges} (hnd : (keyList es).Nodup)
    {ret : List V} (h : toposort es = .ok ret) : Acyclic es := by
  obtain ⟨_, _, _, hE⟩ := toposort_ok_spec hnd h
  intro v hv
  have hmono : ∀ a b, Relation.TransGen (edgeOf es) a b →
      idx ret a < idx ret b := by
    intro a b hab
    induction hab with
    | single h1 => exact (hE _ _ h1).2.2
    | tail _ h1 ih => exact lt_trans ih (hE _ _ h1).2.2
  exact lt_irrefl _ (hmono v v hv)

/-! ### Graph-level well-formedness -/

theorem keyList_append (es1 es2 : Edges) :
    keyList (es1 ++ es2) = keyList es1 ++ keyList es2 := by
  simp [keyList]

theorem lk_append (es1 es2 : Edges) (a : V) :
    lk (es1 ++ es2) a =
      match lk es1 a with
      | some l => some l
      | none => lk es2 a := by
  induction es1 with
  | nil => simp [lk]
  | cons p es ih =>
      obtain ⟨k, l⟩ := p
      by_cases h : k = a
      · simp [lk_cons, h]
      · simp only [List.cons_append, lk_cons, if_neg h, ih]

theorem nodup_keys_concat {es : Edges} (hnd : (keyList es).Nodup) {x : V}
    (hx : x ∉ keyList es) (l : List V) :
    (keyList (es ++ [(x, l)])).Nodup := by
  rw [keyList_append]
  rw [List.nodup_append]
  refine ⟨hnd, by simp [keyList], ?_⟩
  intro a ha hb
  simp only [keyList, List.map_cons, List.map_nil, List.mem_singleton] at hb
  exact hx (hb ▸ ha)

theorem keyList_removedEdges (es : Edges) (v : V) :
    keyList (removedEdges es v) = (keyList es).filter (fun k => k ≠ v) := by
  induction es with
  | nil => rfl
  | cons p es ih =>
      obtain ⟨k, l⟩ := p
      by_cases h : k = v
      · subst h
        have hstep : removedEdges ((k, l) :: es) k = removedEdges es k := by
          simp [removedEdges]
        rw [hstep, ih]
        simp [keyList, List.filter_cons]
      · have hstep : removedEdges ((k, l) :: es) v =
            (k, l.erase v) :: removedEdges es v := by
          simp [removedEdges, h]
        rw [hstep]
        simp only [keyList, List.map_cons, List.filter_cons]
        rw [show (decide (k ≠ v)) = true by simp [h]]
        simp only [if_pos]
        exact congrArg (fun t => k :: t) ih

theorem lk_removedEdges (es : Edges) (v a : V) :
    lk (removedEdges es v) a =
      if a = v then none else (lk es a).map (fun l => l.erase v) := by
  induction es with
  | nil => by_cases h : a = v <;> simp [removedEdges, lk, h]
  | cons p es ih =>
      obtain ⟨k, l⟩ := p
      by_cases hkv : k = v
      · have hstep : removedEdges ((k, l) :: es) v = removedEdges es v := by
          simp [removedEdges, hkv]
        rw [hstep, ih]
        by_cases hav : a = v
        · rw [if_pos hav, if_pos hav]
        · rw [if_neg hav, if_neg hav, lk_cons,
            if_neg (show ¬ k = a by
              intro h
              exact hav (h.symm.trans hkv))]
      · have hstep : removedEdges ((k, l) :: es) v =
            (k, l.erase v) :: removedEdges es v := by
          simp [removedEdges, hkv]
        rw [hstep]
        by_cases hka : k = a
        · subst hka
          rw [lk_cons, if_pos rfl, if_neg (show ¬ k = v from hkv), lk_cons,
            if_pos rfl]
          rfl
        · have hr : lk ((k, l) :: es) a = lk es a := by
            rw [lk_cons, if_neg hka]
          have hlcons : lk ((k, l.erase v) :: removedEdges es v) a =
              lk (removedEdges es v) a := by
            rw [lk_cons, if_neg hka]
          rw [hlcons, hr]
          exact ih

theorem edgeOf_removedEdges {es : Edges} {v a b : V}
    (h : edgeOf (removedEdges es v) a b) : edgeOf es a b := by
  obtain ⟨l, hl, hb⟩ := h
  rw [lk_removedEdges] at hl
  by_cases hav : a = v
  · rw [if_pos hav] at hl
    exact absurd hl (by simp)
  · rw [if_neg hav] at hl
    cases hes : lk es a with
    | none => rw [hes] at hl; exact absurd hl (by simp)
    | some l0 =>
        rw [hes] at hl
        obtain rfl : l0.erase v = l := Option.some.inj hl
        exact ⟨l0, hes, List.mem_of_mem_erase hb⟩

theorem addEdge_eq (g : Graph) (v w : V) :
    g.addEdge v w =
      match toposort (addEdgeEdges g v w) with
      | .ok t => .ok ⟨addEdgeEdges g v w, t⟩
      | .error e => .error e := rfl

theorem addEdgeEdges_nodup {g : Graph} (hnd : (keyList g.edges).Nodup)
    (v w : V) : (keyList (addEdgeEdges g v w)).Nodup := by
  rw [addEdgeEdges]
  set es1 := if hasKey g.edges v then updVal g.edges v (fun l => l ++ [w])
             else g.edges ++ [(v, [w])] with hes1
  have hnd1 : (keyList es1).Nodup := by
    rw [hes1]
    by_cases h : hasKey g.edges v
    · rw [if_pos h, keyList_updVal]
      exact hnd
    · rw [if_neg h]
      refine nodup_keys_concat hnd ?_ [w]
      intro hm
      exact h ((lk_isSome_iff g.edges v).mpr hm)
  by_cases h2 : hasKey es1 w
  · rw [if_pos h2]
    exact hnd1
  · rw [if_neg h2]
    refine nodup_keys_concat hnd1 ?_ []
    intro hm
    exact h2 ((lk_isSome_iff es1 w).mpr hm)

theorem WF_empty : Graph.empty.WF := by
  constructor
  · simp [Graph.empty, keyList]
  · rfl

theorem addVertex_WF {g : Graph} (hWF : g.WF) (v : V) {g' : Graph}
    (h : g.addVertex v = .ok g') : g'.WF := by
  rw [Graph.addVertex] at h
  set es := if hasKey g.edges v then g.edges else g.edges ++ [(v, [])] with hes
  have hnd : (keyList es).Nodup := by
    rw [hes]
    by_cases hk : hasKey g.edges v
    · rw [if_pos hk]; exact hWF.1
    · rw [if_neg hk]
      refine nodup_keys_concat hWF.1 ?_ []
      intro hm
      exact hk ((lk_isSome_iff g.edges v).mpr hm)
  cases ht : toposort es with
  | ok t =>
      rw [ht] at h
      obtain rfl : (⟨es, t⟩ : Graph) = g' := by
        simpa using h
      exact ⟨hnd, ht⟩
  | error e =>
      rw [ht] at h
      simp at h

theorem addEdge_WF {g : Graph} (hWF : g.WF) (v w : V) {g' : Graph}
    (h : g.addEdge v w = .ok g') : g'.WF := by
  rw [addEdge_eq] at h
  cases ht : toposort (addEdgeEdges g v w) with
  | ok t =>
      rw [ht] at h
      obtain rfl : (⟨addEdgeEdges g v w, t⟩ : Graph) = g' := by simpa using h
      exact ⟨addEdgeEdges_nodup hWF.1 v w, ht⟩
  | error e =>
      rw [ht] at h
      simp at h

theorem removeVertex_WF {g : Graph} (hWF : g.WF) (v : V) {g' : Graph}
    (h : g.removeVertex v = .ok g') : g'.WF := by
  rw [Graph.removeVertex] at h
  have hnd : (keyList (removedEdges g.edges v)).Nodup := by
    rw [keyList_removedEdges]
    exact hWF.1.filter _
  cases ht : toposort (removedEdges g.edges v) with
  | ok t =>
      rw [ht] at h
      obtain rfl : (⟨removedEdges g.edges v, t⟩ : Graph) = g' := by simpa using h
      exact ⟨hnd, ht⟩
  | error e =>
      rw [ht] at h
      simp at h

/-- `Add(v)` never fails. -/
theorem addVertex_ok {g : Graph} (hWF : g.WF) (v : V) :
    ∃ g', g.addVertex v = .ok g' := by
  rw [Graph.addVertex]
  set es := if hasKey g.edges v then g.edges else g.edges ++ [(v, [])] with hes
  have hnd : (keyList es).Nodup := by
    rw [hes]
    by_cases hk : hasKey g.edges v
    · rw [if_pos hk]; exact hWF.1
    · rw [if_neg hk]
      refine nodup_keys_concat hWF.1 ?_ []
      intro hm
      exact hk ((lk_isSome_iff g.edges v).mpr hm)
  have hmono : ∀ a b, edgeOf es a b → edgeOf g.edges a b := by
    intro a b ⟨l, hl, hb⟩
    rw [hes] at hl
    by_cases hk : hasKey g.edges v
    · rw [if_pos hk] at hl
      exact ⟨l, hl, hb⟩
    · rw [if_neg hk, lk_append] at hl
      cases hga : lk g.edges a with
      | some l0 =>
          rw [hga] at hl
          simp only at hl
          exact ⟨l0, hga, (Option.some.inj hl) ▸ hb⟩
      | none =>
          rw [hga] at hl
          simp only at hl
          by_cases hva : v = a
          · rw [lk_cons, if_pos hva] at hl
            obtain rfl : ([] : List V) = l := Option.some.inj hl
            simp at hb
          · rw [lk_cons, if_neg hva] at hl
            exact absurd hl (by simp [lk])
  have hacyc : Acyclic es := by
    intro z hz
    exact acyclic_of_toposort_ok hWF.1 hWF.2 z
      (Relation.TransGen.mono hmono hz)
  rw [toposort_ok_of_acyclic hnd hacyc]
  exact ⟨_, rfl⟩

/-- `Remove(v)` never fails. -/
theorem removeVertex_ok {g : Graph} (hWF : g.WF) (v : V) :
    ∃ g', g.removeVertex v = .ok g' := by
  rw [Graph.removeVertex]
  have hnd : (keyList (removedEdges g.edges v)).Nodup := by
    rw [keyList_removedEdges]
    exact hWF.1.filter _
  have hacyc : Acyclic (removedEdges g.edges v) := by
    intro z hz
    exact acyclic_of_toposort_ok hWF.1 hWF.2 z
      (Relation.TransGen.mono (fun a b h => edgeOf_removedEdges h) hz)
  rw [toposort_ok_of_acyclic hnd hacyc]
  exact ⟨_, rfl⟩

/-- The topological-order invariant carried by every well-formed graph. -/
theorem WF_precedes {g : Graph} (hWF : g.WF) {v w : V}
    (h : edgeOf g.edges v w) : Precedes g.toporder v w := by
  obtain ⟨_, _, _, hE⟩ := toposort_ok_spec hWF.1 hWF.2
  obtain ⟨hv, hw, hidx⟩ := hE v w h
  exact ⟨hv, hw, hidx⟩

theorem WF_keys_toporder {g : Graph} (hWF : g.WF) :
    ∀ k ∈ keyList g.edges, k ∈ g.toporder :=
  (toposort_ok_spec hWF.1 hWF.2).2.1

theorem WF_toporder_nodup {g : Graph} (hWF : g.WF) : g.toporder.Nodup :=
  (toposort_ok_spec hWF.1 hWF.2).1

theorem WF_acyclic {g : Graph} (hWF : g.WF) : Acyclic g.edges :=
  acyclic_of_toposort_ok hWF.1 hWF.2

theorem addEdgeEdges_self_loop (g : Graph) (v : V) :
    edgeOf (addEdgeEdges g v v) v v := by
  rw [addEdgeEdges]
  set es1 := if hasKey g.edges v then updVal g.edges v (fun l => l ++ [v])
             else g.edges ++ [(v, [v])] with hes1
  have h1 : ∃ l, lk es1 v = some l ∧ v ∈ l := by
    rw [hes1]
    by_cases hk : hasKey g.edges v
    · rw [if_pos hk]
      cases hlv : lk g.edges v with
      | none => rw [hasKey, hlv] at hk; simp at hk
      | some l =>
          refine ⟨l ++ [v], ?_, by simp⟩
          rw [lk_updVal, if_pos rfl, hlv]
          rfl
    · rw [if_neg hk, lk_append]
      have hnone : lk g.edges v = none := by
        rw [hasKey] at hk
        cases h : lk g.edges v with
        | none => rfl
        | some l => rw [h] at hk; simp at hk
      rw [hnone]
      exact ⟨[v], by simp [lk_cons], by simp⟩
  obtain ⟨l, hl, hv⟩ := h1
  have hkey : hasKey es1 v := by simp [hasKey, hl]
  rw [if_pos hkey]
  exact ⟨l, hl, hv⟩

/-- C1 (invariants).  The topological-order invariant: the empty graph is
well-formed, every successful mutation (`Add`, `AddEdge`, `Remove`)
re-establishes well-formedness (the order is recomputed by each of them),
and in a well-formed graph the maintained order covers every vertex and
places the source of every present edge strictly before its target. -/
theorem claim_C1 :
    Graph.empty.WF ∧
    (∀ g v g', Graph.WF g → g.addVertex v = .ok g' → g'.WF) ∧
    (∀ g v w g', Graph.WF g → g.addEdge v w = .ok g' → g'.WF) ∧
    (∀ g v g', Graph.WF g → g.removeVertex v = .ok g' → g'.WF) ∧
    (∀ g, Graph.WF g → ∀ v w, edgeOf g.edges v w → Precedes g.toporder v w) ∧
    (∀ g, Graph.WF g → ∀ k ∈ g.vertices, k ∈ g.toporder) := by
  refine ⟨WF_empty, ?_, ?_, ?_, ?_, ?_⟩
  · intro g v g' hWF h
    exact addVertex_WF hWF v h
  · intro g v w g' hWF h
    exact addEdge_WF hWF v w h
  · intro g v g' hWF h
    exact removeVertex_WF hWF v h
  · intro g hWF v w h
    exact WF_precedes hWF h
  · intro g hWF k hk
    exact WF_keys_toporder hWF k hk

/-- Witness for C1 at a concrete input: a two-edge graph built by the API
is well-formed and its order respects both edges. -/
theorem claim_C1_witness :
    Graph.empty.addEdge 0 1 = .ok ⟨[(0, [1]), (1, [])], [0, 1]⟩ ∧
    (Graph.mk [(0, [1]), (1, [])] [0, 1]).WF ∧
    Precedes [0, 1] 0 1 := by
  have h0 : Graph.empty.addEdge 0 1 = .ok ⟨[(0, [1]), (1, [])], [0, 1]⟩ := by
    rfl
  have hWF : (Graph.mk [(0, [1]), (1, [])] [0, 1]).WF :=
    claim_C1.2.2.1 Graph.empty 0 1 _ claim_C1.1 h0
  have hedge : edgeOf [(0, [1]), (1, [])] 0 1 := ⟨[1], rfl, by simp⟩
  exact ⟨h0, hWF, claim_C1.2.2.2.2.1 _ hWF 0 1 hedge⟩

/-- C2 (error_handling).  `AddEdge` cycle rejection with rollback: if the
candidate edge set stays acyclic the call returns `ok`; if it would close
a cycle the call raises `CycleDetected` and the caller's graph is exactly
the pre-call graph (all-or-nothing); a self-loop is always rejected. -/
theorem claim_C2 (g : Graph) (hWF : g.WF) (v w : V) :
    (Acyclic (addEdgeEdges g v w) →
      g.addEdge v w = .ok (addEdgeState g v w) ∧
      (addEdgeState g v w).edges = addEdgeEdges g v w ∧
      (addEdgeState g v w).WF) ∧
    (¬ Acyclic (addEdgeEdges g v w) →
      g.addEdge v w = .error () ∧ addEdgeState g v w = g) ∧
    (v = w → g.addEdge v w = .error ()) := by
  have hnd2 : (keyList (addEdgeEdges g v w)).Nodup := addEdgeEdges_nodup hWF.1 v w
  have herr : ¬ Acyclic (addEdgeEdges g v w) → g.addEdge v w = .error () := by
    intro hnac
    rw [addEdge_eq]
    cases ht : toposort (addEdgeEdges g v w) with
    | ok t => exact absurd (acyclic_of_toposort_ok hnd2 ht) hnac
    | error e => rfl
  refine ⟨?_, ?_, ?_⟩
  · intro hacyc
    have ht := toposort_ok_of_acyclic hnd2 hacyc
    have hok : g.addEdge v w =
        .ok ⟨addEdgeEdges g v w, (kahnRun (addEdgeEdges g v w)).2⟩ := by
      rw [addEdge_eq, ht]
    have hst : addEdgeState g v w =
        ⟨addEdgeEdges g v w, (kahnRun (addEdgeEdges g v w)).2⟩ := by
      rw [addEdgeState, hok]
    rw [hok, hst]
    exact ⟨rfl, rfl, hnd2, ht⟩
  · intro hnac
    have he := herr hnac
    refine ⟨he, ?_⟩
    rw [addEdgeState, he]
  · intro hvw
    subst hvw
    apply herr
    intro hacyc
    exact hacyc v (Relation.TransGen.single (addEdgeEdges_self_loop g v))

/-- Witness for C2 at concrete inputs: on the one-edge graph 0→1, adding
1→0 closes a cycle, raises, and leaves the graph unchanged. -/
theorem claim_C2_witness :
    Graph.addEdge ⟨[(0, [1]), (1, [])], [0, 1]⟩ 1 0 = .error () ∧
    addEdgeState ⟨[(0, [1]), (1, [])], [0, 1]⟩ 1 0 = ⟨[(0, [1]), (1, [])], [0, 1]⟩ := by
  have hWF : (Graph.mk [(0, [1]), (1, [])] [0, 1]).WF := ⟨by decide, rfl⟩
  have e01 : edgeOf (addEdgeEdges ⟨[(0, [1]), (1, [])], [0, 1]⟩ 1 0) 0 1 :=
    ⟨[1], rfl, by simp⟩
  have e10 : edgeOf (addEdgeEdges ⟨[(0, [1]), (1, [])], [0, 1]⟩ 1 0) 1 0 :=
    ⟨[0], rfl, by simp⟩
  have hnac : ¬ Acyclic (addEdgeEdges ⟨[(0, [1]), (1, [])], [0, 1]⟩ 1 0) := by
    intro hacyc
    exact hacyc 0 (Relation.TransGen.tail (Relation.TransGen.single e01) e10)
  exact (claim_C2 _ hWF 1 0).2.1 hnac

/-! ### The transitive-closure walks of `successors` and `precursors` -/

theorem pickMin_mem (L : List V) : ∀ rem : List V, rem ≠ [] → pickMin L rem ∈ rem := by
  intro rem
  induction rem with
  | nil => intro h; exact absurd rfl h
  | cons x xs ih =>
      intro _
      cases xs with
      | nil => simp [pickMin]
      | cons y ys =>
          rw [pickMin]
          by_cases h : idx L x ≤ idx L (pickMin L (y :: ys))
          · rw [if_pos h]; exact List.mem_cons_self _ _
          · rw [if_neg h]
            exact List.mem_cons_of_mem x (ih (by simp))

theorem pickMin_min (L : List V) : ∀ rem : List V, ∀ x ∈ rem,
    idx L (pickMin L rem) ≤ idx L x := by
  intro rem
  induction rem with
  | nil => intro x hx; simp at hx
  | cons a as ih =>
      intro x hx
      cases as with
      | nil =>
          rcases List.mem_cons.mp hx with rfl | h
          · simp [pickMin]
          · simp at h
      | cons y ys =>
          rw [pickMin]
          by_cases h : idx L a ≤ idx L (pickMin L (y :: ys))
          · rw [if_pos h]
            rcases List.mem_cons.mp hx with rfl | h1
            · exact le_refl _
            · exact le_trans h (ih x h1)
          · rw [if_neg h]
            rcases List.mem_cons.mp hx with rfl | h1
            · exact le_of_lt (Nat.lt_of_not_le h)
            · exact ih x h1

theorem pickMax_mem (L : List V) : ∀ rem : List V, rem ≠ [] → pickMax L rem ∈ rem := by
  intro rem
  induction rem with
  | nil => intro h; exact absurd rfl h
  | cons x xs ih =>
      intro _
      cases xs with
      | nil => simp [pickMax]
      | cons y ys =>
          rw [pickMax]
          by_cases h : idx L (pickMax L (y :: ys)) ≤ idx L x
          · rw [if_pos h]; exact List.mem_cons_self _ _
          · rw [if_neg h]
            exact List.mem_cons_of_mem x (ih (by simp))

theorem pickMax_max (L : List V) : ∀ rem : List V, ∀ x ∈ rem,
    idx L x ≤ idx L (pickMax L rem) := by
  intro rem
  induction rem with
  | nil => intro x hx; simp at hx
  | cons a as ih =>
      intro x hx
      cases as with
      | nil =>
          rcases List.mem_cons.mp hx with rfl | h
          · simp [pickMax]
          · simp at h
      | cons y ys =>
          rw [pickMax]
          by_cases h : idx L (pickMax L (y :: ys)) ≤ idx L a
          · rw [if_pos h]
            rcases List.mem_cons.mp hx with rfl | h1
            · exact le_refl _
            · exact le_trans (ih x h1) h
          · rw [if_neg h]
            rcases List.mem_cons.mp hx with rfl | h1
            · exact le_of_lt (Nat.lt_of_not_le h)
            · exact ih x h1

theorem foldl_addIfAbsent_mem (l : List V) : ∀ (rem : List V) (x : V),
    x ∈ l.foldl addIfAbsent rem ↔ x ∈ rem ∨ x ∈ l := by
  induction l with
  | nil => intro rem x; simp
  | cons m ms ih =>
      intro rem x
      rw [List.foldl_cons, ih]
      constructor
      · rintro (h | h)
        · rw [addIfAbsent] at h
          by_cases hm : m ∈ rem
          · rw [if_pos hm] at h
            exact Or.inl h
          · rw [if_neg hm] at h
            rcases List.mem_append.mp h with h1 | h1
            · exact Or.inl h1
            · exact Or.inr (List.mem_singleton.mp h1 ▸ List.mem_cons_self m ms)
        · exact Or.inr (List.mem_cons_of_mem m h)
      · rintro (h | h)
        · refine Or.inl ?_
          rw [addIfAbsent]
          by_cases hm : m ∈ rem
          · rwa [if_pos hm]
          · rw [if_neg hm]
            exact List.mem_append.mpr (Or.inl h)
        · rcases List.mem_cons.mp h with rfl | h1
          · refine Or.inl ?_
            rw [addIfAbsent]
            by_cases hm : x ∈ rem
            · rwa [if_pos hm]
            · rw [if_neg hm]
              exact List.mem_append.mpr (Or.inr (List.mem_singleton.mpr rfl))
          · exact Or.inr h1

theorem foldl_addIfAbsent_nodup (l : List V) : ∀ rem : List V, rem.Nodup →
    (l.foldl addIfAbsent rem).Nodup := by
  induction l with
  | nil => intro rem h; simpa using h
  | cons m ms ih =>
      intro rem h
      rw [List.foldl_cons]
      apply ih
      rw [addIfAbsent]
      by_cases hm : m ∈ rem
      · rwa [if_pos hm]
      · rw [if_neg hm, List.nodup_append]
        exact ⟨h, List.nodup_singleton m, by
          intro a ha hb
          rw [List.mem_singleton] at hb
          exact hm (hb ▸ ha)⟩

/-- Correctness of the `successors` walk: with enough fuel it visits
exactly the set reachable from the pending frontier, and the visited set
is closed under outgoing edges. -/
theorem succLoop_spec (L : List V) (es : Edges) (v : V)
    (hedge : ∀ a b, edgeOf es a b → a ∈ L ∧ b ∈ L ∧ idx L a < idx L b) :
    ∀ fuel b rem ret,
      L.length ≤ fuel + b →
      rem.Nodup →
      (∀ x ∈ rem, x ∈ L ∧ b ≤ idx L x) →
      (∀ x ∈ rem, Relation.TransGen (edgeOf es) v x) →
      (∀ x ∈ ret, Relation.TransGen (edgeOf es) v x) →
      (∀ u ∈ ret, ∀ m, edgeOf es u m → m ∈ ret ∨ m ∈ rem) →
      (∀ m, edgeOf es v m → m ∈ ret ∨ m ∈ rem) →
      (∀ x ∈ succLoop L es fuel rem ret, Relation.TransGen (edgeOf es) v x) ∧
      (∀ u ∈ succLoop L es fuel rem ret, ∀ m, edgeOf es u m →
        m ∈ succLoop L es fuel rem ret) ∧
      (∀ m, edgeOf es v m → m ∈ succLoop L es fuel rem ret) ∧
      (∀ x ∈ ret, x ∈ succLoop L es fuel rem ret) := by
  intro fuel
  induction fuel with
  | zero =>
      intro b rem ret hfuel hnd hbound hreachrem hreachret hclosed hbase
      cases rem with
      | nil =>
          rw [show succLoop L es 0 [] ret = ret from rfl]
          refine ⟨hreachret, ?_, ?_, fun x hx => hx⟩
          · intro u hu m hm
            rcases hclosed u hu m hm with h | h
            · exact h
            · simp at h
          · intro m hm
            rcases hbase m hm with h | h
            · exact h
            · simp at h
      | cons r rs =>
          exfalso
          obtain ⟨hrL, hrb⟩ := hbound r (List.mem_cons_self r rs)
          have := idx_lt_length hrL
          omega
  | succ fuel ih =>
      intro b rem ret hfuel hnd hbound hreachrem hreachret hclosed hbase
      cases rem with
      | nil =>
          rw [show succLoop L es (fuel + 1) [] ret = ret from rfl]
          refine ⟨hreachret, ?_, ?_, fun x hx => hx⟩
          · intro u hu m hm
            rcases hclosed u hu m hm with h | h
            · exact h
            · simp at h
          · intro m hm
            rcases hbase m hm with h | h
            · exact h
            · simp at h
      | cons r rs =>
          have hne : (r :: rs : List V) ≠ [] := by simp
          set n := pickMin L (r :: rs) with hn
          have hnmem : n ∈ r :: rs := pickMin_mem L (r :: rs) hne
          have hnmin : ∀ x ∈ r :: rs, idx L n ≤ idx L x := pickMin_min L (r :: rs)
          obtain ⟨hnL, hnb⟩ := hbound n hnmem
          have hstep : succLoop L es (fuel + 1) (r :: rs) ret =
              succLoop L es fuel
                (match lk es n with
                 | some l => l.foldl addIfAbsent ((r :: rs).erase n)
                 | none => (r :: rs).erase n) (ret ++ [n]) := by
            rw [succLoop]
          rw [hstep]
          have hmemret' : ∀ x, x ∈ ret ++ [n] ↔ x ∈ ret ∨ x = n := by
            intro x; simp [List.mem_append]
          -- facts about the new pending set
          have herase_mem : ∀ x, x ∈ (r :: rs).erase n ↔ x ≠ n ∧ x ∈ r :: rs :=
            fun x => hnd.mem_erase_iff
          have herase_nodup : ((r :: rs).erase n).Nodup := hnd.erase n
          have hrem''_mem : ∀ x, x ∈ (match lk es n with
              | some l => l.foldl addIfAbsent ((r :: rs).erase n)
              | none => (r :: rs).erase n) ↔
              (x ≠ n ∧ x ∈ r :: rs) ∨ edgeOf es n x := by
            intro x
            cases hlk : lk es n with
            | none =>
                simp only
                rw [herase_mem]
                constructor
                · exact Or.inl
                · rintro (h | ⟨l0, hl0, _⟩)
                  · exact h
                  · rw [hlk] at hl0; exact absurd hl0 (by simp)
            | some l =>
                simp only
                rw [foldl_addIfAbsent_mem, herase_mem]
                constructor
                · rintro (h | h)
                  · exact Or.inl h
                  · exact Or.inr ⟨l, hlk, h⟩
                · rintro (h | ⟨l0, hl0, hx⟩)
                  · exact Or.inl h
                  · refine Or.inr ?_
                    rw [hlk] at hl0
                    exact (Option.some.inj hl0) ▸ hx
          have hrem''_nodup : (match lk es n with
              | some l => l.foldl addIfAbsent ((r :: rs).erase n)
              | none => (r :: rs).erase n).Nodup := by
            cases hlk : lk es n with
            | none => simpa using herase_nodup
            | some l =>
                simp only
                exact foldl_addIfAbsent_nodup l _ herase_nodup
          have hreach_n : Relation.TransGen (edgeOf es) v n :=
            hreachrem n hnmem
          obtain ⟨ih1, ih2, ih3, ih4⟩ := ih (idx L n + 1) _ (ret ++ [n])
            (by
              have := idx_lt_length hnL
              omega)
            hrem''_nodup
            (by
              intro x hx
              rcases (hrem''_mem x).mp hx with ⟨hxn, hxrem⟩ | hxe
              · obtain ⟨hxL, hxb⟩ := hbound x hxrem
                refine ⟨hxL, ?_⟩
                have hle := hnmin x hxrem
                have hne' : idx L x ≠ idx L n :=
                  fun h => hxn (idx_inj hxL hnL h)
                omega
              · obtain ⟨_, hbL, hlt⟩ := hedge n x hxe
                exact ⟨hbL, by omega⟩)
            (by
              intro x hx
              rcases (hrem''_mem x).mp hx with ⟨_, hxrem⟩ | hxe
              · exact hreachrem x hxrem
              · exact Relation.TransGen.tail hreach_n hxe)
            (by
              intro x hx
              rcases (hmemret' x).mp hx with h | rfl
              · exact hreachret x h
              · exact hreach_n)
            (by
              intro u hu m hm
              rcases (hmemret' u).mp hu with h | rfl
              · rcases hclosed u h m hm with h1 | h1
                · exact Or.inl ((hmemret' m).mpr (Or.inl h1))
                · by_cases hmn : m = n
                  · exact Or.inl ((hmemret' m).mpr (Or.inr hmn))
                  · exact Or.inr ((hrem''_mem m).mpr (Or.inl ⟨hmn, h1⟩))
              · exact Or.inr ((hrem''_mem m).mpr (Or.inr hm)))
            (by
              intro m hm
              rcases hbase m hm with h1 | h1
              · exact Or.inl ((hmemret' m).mpr (Or.inl h1))
              · by_cases hmn : m = n
                · exact Or.inl ((hmemret' m).mpr (Or.inr hmn))
                · exact Or.inr ((hrem''_mem m).mpr (Or.inl ⟨hmn, h1⟩)))
          exact ⟨ih1, ih2, ih3,
            fun x hx => ih4 x ((hmemret' x).mpr (Or.inl hx))⟩

/-- Correctness of the `precursors` walk, the mirror image of
`succLoop_spec` along incoming edges. -/
theorem precLoop_spec (L : List V) (es : Edges) (v : V)
    (hedge : ∀ a b, edgeOf es a b → a ∈ L ∧ b ∈ L ∧ idx L a < idx L b) :
    ∀ fuel b rem ret,
      b ≤ fuel →
      rem.Nodup →
      (∀ x ∈ rem, x ∈ L ∧ idx L x < b) →
      (∀ x ∈ rem, Relation.TransGen (edgeOf es) x v) →
      (∀ x ∈ ret, Relation.TransGen (edgeOf es) x v) →
      (∀ u ∈ ret, ∀ m, edgeOf es m u → m ∈ ret ∨ m ∈ rem) →
      (∀ m, edgeOf es m v → m ∈ ret ∨ m ∈ rem) →
      (∀ x ∈ precLoop L es fuel rem ret, Relation.TransGen (edgeOf es) x v) ∧
      (∀ u ∈ precLoop L es fuel rem ret, ∀ m, edgeOf es m u →
        m ∈ precLoop L es fuel rem ret) ∧
      (∀ m, edgeOf es m v → m ∈ precLoop L es fuel rem ret) ∧
      (∀ x ∈ ret, x ∈ precLoop L es fuel rem ret) := by
  intro fuel
  induction fuel with
  | zero =>
      intro b rem ret hfuel hnd hbound hreachrem hreachret hclosed hbase
      cases rem with
      | nil =>
          rw [show precLoop L es 0 [] ret = ret from rfl]
          refine ⟨hreachret, ?_, ?_, fun x hx => hx⟩
          · intro u hu m hm
            rcases hclosed u hu m hm with h | h
            · exact h
            · simp at h
          · intro m hm
            rcases hbase m hm with h | h
            · exact h
            · simp at h
      | cons r rs =>
          exfalso
          obtain ⟨_, hrb⟩ := hbound r (List.mem_cons_self r rs)
          omega
  | succ fuel ih =>
      intro b rem ret hfuel hnd hbound hreachrem hreachret hclosed hbase
      cases rem with
      | nil =>
          rw [show precLoop L es (fuel + 1) [] ret = ret from rfl]
          refine ⟨hreachret, ?_, ?_, fun x hx => hx⟩
          · intro u hu m hm
            rcases hclosed u hu m hm with h | h
            · exact h
            · simp at h
          · intro m hm
            rcases hbase m hm with h | h
            · exact h
            · simp at h
      | cons r rs =>
          have hne : (r :: rs : List V) ≠ [] := by simp
          set n := pickMax L (r :: rs) with hn
          have hnmem : n ∈ r :: rs := pickMax_mem L (r :: rs) hne
          have hnmax : ∀ x ∈ r :: rs, idx L x ≤ idx L n := pickMax_max L (r :: rs)
          obtain ⟨hnL, hnb⟩ := hbound n hnmem
          have hstep : precLoop L es (fuel + 1) (r :: rs) ret =
              precLoop L es fuel
                (((keyList es).filter (fun m => n ∈ lkD es m)).foldl addIfAbsent
                  ((r :: rs).erase n)) (ret ++ [n]) := by
            rw [precLoop]
          rw [hstep]
          have hmemret' : ∀ x, x ∈ ret ++ [n] ↔ x ∈ ret ∨ x = n := by
            intro x; simp [List.mem_append]
          have herase_mem : ∀ x, x ∈ (r :: rs).erase n ↔ x ≠ n ∧ x ∈ r :: rs :=
            fun x => hnd.mem_erase_iff
          have herase_nodup : ((r :: rs).erase n).Nodup := hnd.erase n
          have hfilter_mem : ∀ x,
              x ∈ (keyList es).filter (fun m => n ∈ lkD es m) ↔ edgeOf es x n := by
            intro x
            rw [List.mem_filter]
            constructor
            · rintro ⟨hxk, hxl⟩
              cases hlk : lk es x with
              | none =>
                  rw [lkD, hlk] at hxl
                  simp at hxl
              | some l =>
                  rw [lkD, hlk] at hxl
                  exact ⟨l, hlk, by simpa using hxl⟩
            · rintro ⟨l, hl, hnl⟩
              refine ⟨(lk_isSome_iff es x).mp (by simp [hl]), ?_⟩
              rw [lkD, hl]
              simpa using hnl
          have hrem''_mem : ∀ x,
              x ∈ ((keyList es).filter (fun m => n ∈ lkD es m)).foldl addIfAbsent
                ((r :: rs).erase n) ↔
              (x ≠ n ∧ x ∈ r :: rs) ∨ edgeOf es x n := by
            intro x
            rw [foldl_addIfAbsent_mem, herase_mem, hfilter_mem]
          have hrem''_nodup :
              (((keyList es).filter (fun m => n ∈ lkD es m)).foldl addIfAbsent
                ((r :: rs).erase n)).Nodup :=
            foldl_addIfAbsent_nodup _ _ herase_nodup
          have hreach_n : Relation.TransGen (edgeOf es) n v :=
            hreachrem n hnmem
          obtain ⟨ih1, ih2, ih3, ih4⟩ := ih (idx L n) _ (ret ++ [n])
            (by omega)
            hrem''_nodup
            (by
              intro x hx
              rcases (hrem''_mem x).mp hx with ⟨hxn, hxrem⟩ | hxe
              · obtain ⟨hxL, _⟩ := hbound x hxrem
                refine ⟨hxL, ?_⟩
                have hle := hnmax x hxrem
                have hne' : idx L x ≠ idx L n :=
                  fun h => hxn (idx_inj hxL hnL h)
                omega
              · obtain ⟨haL, _, hlt⟩ := hedge x n hxe
                exact ⟨haL, hlt⟩)
            (by
              intro x hx
              rcases (hrem''_mem x).mp hx with ⟨_, hxrem⟩ | hxe
              · exact hreachrem x hxrem
              · exact Relation.TransGen.head hxe hreach_n)
            (by
              intro x hx
              rcases (hmemret' x).mp hx with h | rfl
              · exact hreachret x h
              · exact hreach_n)
            (by
              intro u hu m hm
              rcases (hmemret' u).mp hu with h | rfl
              · rcases hclosed u h m hm with h1 | h1
                · exact Or.inl ((hmemret' m).mpr (Or.inl h1))
                · by_cases hmn : m = n
                  · exact Or.inl ((hmemret' m).mpr (Or.inr hmn))
                  · exact Or.inr ((hrem''_mem m).mpr (Or.inl ⟨hmn, h1⟩))
              · exact Or.inr ((hrem''_mem m).mpr (Or.inr hm)))
            (by
              intro m hm
              rcases hbase m hm with h1 | h1
              · exact Or.inl ((hmemret' m).mpr (Or.inl h1))
              · by_cases hmn : m = n
                · exact Or.inl ((hmemret' m).mpr (Or.inr hmn))
                · exact Or.inr ((hrem''_mem m).mpr (Or.inl ⟨hmn, h1⟩)))
          exact ⟨ih1, ih2, ih3,
            fun x hx => ih4 x ((hmemret' x).mpr (Or.inl hx))⟩

theorem WF_edge_bounds {g : Graph} (hWF : g.WF) :
    ∀ a b, edgeOf g.edges a b →
      a ∈ g.toporder ∧ b ∈ g.toporder ∧ idx g.toporder a < idx g.toporder b := by
  intro a b h
  exact (toposort_ok_spec hWF.1 hWF.2).2.2.2 a b h

theorem transGen_target_mem {g : Graph} (hWF : g.WF) {v x : V}
    (h : Relation.TransGen (edgeOf g.edges) v x) : x ∈ g.toporder := by
  induction h with
  | single h1 => exact (WF_edge_bounds hWF _ _ h1).2.1
  | tail _ h1 _ => exact (WF_edge_bounds hWF _ _ h1).2.1

theorem transGen_source_mem {g : Graph} (hWF : g.WF) {x v : V}
    (h : Relation.TransGen (edgeOf g.edges) x v) : x ∈ g.toporder := by
  induction h with
  | single h1 => exact (WF_edge_bounds hWF _ _ h1).1
  | tail hprev _ ih => exact ih

/-- `Graph.successors` on a present vertex returns exactly the transitive
successor closure, as a subsequence of the topological order, excluding
the vertex itself. -/
theorem successors_spec {g : Graph} (hWF : g.WF) {v : V} {l : List V}
    (hlk : lk g.edges v = some l) :
    ∃ out, g.successors v = .ok out ∧ out.Sublist g.toporder ∧
      (∀ x, x ∈ out ↔ Relation.TransGen (edgeOf g.edges) v x) ∧
      v ∉ out := by
  have hedge := WF_edge_bounds hWF
  set ret0 := succLoop g.toporder g.edges (g.toporder.length + 1)
      (l.foldl addIfAbsent []) [] with hret0
  have hout : g.successors v =
      .ok (g.toporder.filter (fun x => x ∈ ret0)) := by
    rw [Graph.successors, hlk]
  obtain ⟨s1, s2, s3, _⟩ := succLoop_spec g.toporder g.edges v hedge
    (g.toporder.length + 1) 0 (l.foldl addIfAbsent []) []
    (by omega)
    (foldl_addIfAbsent_nodup l [] List.nodup_nil)
    (by
      intro x hx
      have hxl : x ∈ l := by
        rcases (foldl_addIfAbsent_mem l [] x).mp hx with h | h
        · simp at h
        · exact h
      obtain ⟨hL, _, _⟩ := hedge v x ⟨l, hlk, hxl⟩
      exact ⟨(hedge v x ⟨l, hlk, hxl⟩).2.1, Nat.zero_le _⟩)
    (by
      intro x hx
      have hxl : x ∈ l := by
        rcases (foldl_addIfAbsent_mem l [] x).mp hx with h | h
        · simp at h
        · exact h
      exact Relation.TransGen.single ⟨l, hlk, hxl⟩)
    (by intro x hx; simp at hx)
    (by intro u hu; simp at hu)
    (by
      intro m hm
      obtain ⟨l0, hl0, hml0⟩ := hm
      obtain rfl : l = l0 := Option.some.inj (hlk.symm.trans hl0)
      exact Or.inr ((foldl_addIfAbsent_mem l [] m).mpr (Or.inr hml0)))
  have hcomplete : ∀ x, Relation.TransGen (edgeOf g.edges) v x → x ∈ ret0 := by
    intro x hx
    induction hx with
    | single h1 => exact s3 _ h1
    | tail _ h1 ih => exact s2 _ ih _ h1
  refine ⟨_, hout, List.filter_sublist _, ?_, ?_⟩
  · intro x
    rw [List.mem_filter]
    constructor
    · rintro ⟨_, hx⟩
      exact s1 x (by simpa using hx)
    · intro hx
      exact ⟨transGen_target_mem hWF hx, by simpa using hcomplete x hx⟩
  · intro hv
    rw [List.mem_filter] at hv
    exact WF_acyclic hWF v (s1 v (by simpa using hv.2))

/-- `Graph.precursors` always returns exactly the transitive predecessor
closure (even for an absent vertex), as a subsequence of the topological
order, excluding the vertex itself. -/
theorem precursors_spec {g : Graph} (hWF : g.WF) (v : V) :
    (g.precursors v).Sublist g.toporder ∧
    (∀ x, x ∈ g.precursors v ↔ Relation.TransGen (edgeOf g.edges) x v) ∧
    v ∉ g.precursors v := by
  have hedge := WF_edge_bounds hWF
  set rem0 := (keyList g.edges).filter (fun m => v ∈ lkD g.edges m) with hrem0
  have hrem0_mem : ∀ x, x ∈ rem0 ↔ edgeOf g.edges x v := by
    intro x
    rw [hrem0, List.mem_filter]
    constructor
    · rintro ⟨hxk, hxl⟩
      cases hlk : lk g.edges x with
      | none =>
          rw [lkD, hlk] at hxl
          simp at hxl
      | some l0 =>
          rw [lkD, hlk] at hxl
          exact ⟨l0, hlk, by simpa using hxl⟩
    · rintro ⟨l0, hl0, hvl0⟩
      refine ⟨(lk_isSome_iff g.edges x).mp (by simp [hl0]), ?_⟩
      rw [lkD, hl0]
      simpa using hvl0
  set ret0 := precLoop g.toporder g.edges (g.toporder.length + 1) rem0 [] with hret0
  have hout : g.precursors v = g.toporder.filter (fun x => x ∈ ret0) := by
    rw [Graph.precursors]
  obtain ⟨s1, s2, s3, _⟩ := precLoop_spec g.toporder g.edges v hedge
    (g.toporder.length + 1) (idx g.toporder v) rem0 []
    (by
      have : idx g.toporder v ≤ g.toporder.length := by
        clear hrem0 hret0 hedge
        induction g.toporder with
        | nil => simp [idx]
        | cons y ys ih =>
            by_cases h : y = v
            · simp [idx, h]
            · simp only [idx, if_neg h, List.length_cons]
              omega
      omega)
    (hWF.1.filter _)
    (by
      intro x hx
      obtain ⟨hL, _, hlt⟩ := hedge x v ((hrem0_mem x).mp hx)
      exact ⟨hL, hlt⟩)
    (fun x hx => Relation.TransGen.single ((hrem0_mem x).mp hx))
    (by intro x hx; simp at hx)
    (by intro u hu; simp at hu)
    (fun m hm => Or.inr ((hrem0_mem m).mpr hm))
  have hcomplete : ∀ x, Relation.TransGen (edgeOf g.edges) x v → x ∈ ret0 := by
    intro x hx
    induction hx using Relation.TransGen.head_induction_on with
    | base h1 => exact s3 _ h1
    | ih h1 _ ih => exact s2 _ ih _ h1
  rw [hout]
  refine ⟨List.filter_sublist _, ?_, ?_⟩
  · intro x
    rw [List.mem_filter]
    constructor
    · rintro ⟨_, hx⟩
      exact s1 x (by simpa using hx)
    · intro hx
      exact ⟨transGen_source_mem hWF hx, by simpa using hcomplete x hx⟩
  · intro hv
    rw [List.mem_filter] at hv
    exact WF_acyclic hWF v (s1 v (by simpa using hv.2))

/-- C5 (functional_correctness).  `Successors(v)` / `Precursors(v)` on a
present vertex return exactly the full transitive closure along outgoing
(resp. incoming) edges, rendered as a subsequence of the maintained
topological order (hence in ascending topological order), and neither
contains `v` itself. -/
theorem claim_C5 (g : Graph) (hWF : g.WF) (v : V) (hv : v ∈ g.vertices) :
    (∃ out, g.successors v = .ok out ∧ out.Sublist g.toporder ∧
      (∀ x, x ∈ out ↔ Relation.TransGen (edgeOf g.edges) v x) ∧ v ∉ out) ∧
    ((g.precursors v).Sublist g.toporder ∧
      (∀ x, x ∈ g.precursors v ↔ Relation.TransGen (edgeOf g.edges) x v) ∧
      v ∉ g.precursors v) := by
  have hsome : (lk g.edges v).isSome := (lk_isSome_iff g.edges v).mpr hv
  cases hlk : lk g.edges v with
  | none => rw [hlk] at hsome; simp at hsome
  | some l => exact ⟨successors_spec hWF hlk, precursors_spec hWF v⟩

/-- Witness for C5 on the one-edge graph 0→1: the closures are `[1]`
and `[0]` respectively and exclude the queried vertex. -/
theorem claim_C5_witness :
    Graph.successors ⟨[(0, [1]), (1, [])], [0, 1]⟩ 0 = .ok [1] ∧
    Graph.precursors ⟨[(0, [1]), (1, [])], [0, 1]⟩ 1 = [0] ∧
    Relation.TransGen (edgeOf [(0, [1]), (1, [])]) 0 1 := by
  have hWF : (Graph.mk [(0, [1]), (1, [])] [0, 1]).WF := ⟨by decide, rfl⟩
  have hv : (0 : V) ∈ (Graph.mk [(0, [1]), (1, [])] [0, 1]).vertices := by
    simp [Graph.vertices, keyList]
  obtain ⟨⟨out, hout, _, hmem, _⟩, _⟩ := claim_C5 _ hWF 0 hv
  have hcomp : Graph.successors ⟨[(0, [1]), (1, [])], [0, 1]⟩ 0 = .ok [1] := by
    rfl
  have hpre : Graph.precursors ⟨[(0, [1]), (1, [])], [0, 1]⟩ 1 = [0] := by
    rfl
  have hout1 : out = [1] := Except.ok.inj (hout.symm.trans hcomp)
  exact ⟨hcomp, hpre, (hmem 1).mp (by rw [hout1]; simp)⟩

/-- C8 counterexample: on the one-vertex graph `{0: []}`, the
`Precursors` query for the absent vertex 5 does not fail — it returns the
plain empty list, the very same non-error result the present vertex 0
yields; the claim that both queries error on absent vertices is false. -/
theorem claim_C8_counterexample :
    lk [(0, ([] : List V))] 5 = none ∧
    Graph.precursors ⟨[(0, [])], [0]⟩ 5 = [] ∧
    Graph.precursors ⟨[(0, [])], [0]⟩ 0 = [] := by
  refine ⟨rfl, rfl, rfl⟩

/-- C8 (error_handling), amended.  `Successors` on an absent vertex does
fail (`KeyError`), an outcome distinct from the valid empty result of a
present childless vertex; but `Precursors` cannot fail at all: on an
absent vertex with no incoming edges it returns the same empty list as a
present vertex with no precursors. -/
theorem claim_C8_amended (g : Graph) (v : V) :
    (lk g.edges v = none → g.successors v = .error ()) ∧
    (∀ l, lk g.edges v = some l → ∃ out, g.successors v = .ok out) ∧
    ((.error () : Except Unit (List V)) ≠ .ok []) ∧
    (lk g.edges v = none → (∀ p ∈ g.edges, v ∉ p.2) →
      g.precursors v = []) := by
  refine ⟨?_, ?_, by simp, ?_⟩
  · intro h
    rw [Graph.successors, h]
  · intro l h
    rw [Graph.successors, h]
    exact ⟨_, rfl⟩
  · intro _ hno
    rw [Graph.precursors]
    have hrem0 : (keyList g.edges).filter (fun m => v ∈ lkD g.edges m) = [] := by
      rw [List.filter_eq_nil_iff]
      intro m hm
      simp only [decide_eq_true_eq]
      intro hv
      rw [lkD] at hv
      cases hlk : lk g.edges m with
      | none => rw [hlk] at hv; simp at hv
      | some l0 =>
          rw [hlk] at hv
          exact hno (m, l0) (lk_mem_of_some hlk) (by simpa using hv)
    rw [hrem0]
    have hloop : precLoop g.toporder g.edges (g.toporder.length + 1) [] [] = [] := by
      rw [precLoop]
    rw [hloop]
    simp

/-- Witness for the amended C8 at a concrete input. -/
theorem claim_C8_amended_witness :
    Graph.successors ⟨[(0, [])], [0]⟩ 5 = .error () ∧
    Graph.precursors ⟨[(0, [])], [0]⟩ 5 = [] := by
  obtain ⟨h1, _, _, h4⟩ := claim_C8_amended ⟨[(0, [])], [0]⟩ 5
  exact ⟨h1 rfl, h4 rfl (by decide)⟩

/-! ### Duplicate edges do not change the observable graph -/

theorem memEq_refl (es : Edges) : MemEq es es := ⟨rfl, fun _ _ => Iff.rfl⟩

theorem edgeOf_iff_lkD (es : Edges) (a b : V) :
    edgeOf es a b ↔ b ∈ lkD es a := by
  constructor
  · rintro ⟨l, hl, hb⟩
    rw [lkD, hl]
    simpa using hb
  · intro hb
    rw [lkD] at hb
    cases hl : lk es a with
    | none => rw [hl] at hb; simp at hb
    | some l => rw [hl] at hb; exact ⟨l, hl, by simpa using hb⟩

theorem memEq_hasInc {es1 es2 : Edges} (h : MemEq es1 es2)
    (hnd1 : (keyList es1).Nodup) (hnd2 : (keyList es2).Nodup) (x : V) :
    HasInc es1 x ↔ HasInc es2 x := by
  rw [hasInc_iff_lkD hnd1, hasInc_iff_lkD hnd2]
  constructor
  · rintro ⟨k, hk⟩; exact ⟨k, (h.2 k x).mp hk⟩
  · rintro ⟨k, hk⟩; exact ⟨k, (h.2 k x).mpr hk⟩

theorem memEq_addCond {es1 es2 : Edges} (h : MemEq es1 es2) (n m : V) :
    AddCond es1 n m ↔ AddCond es2 n m := by
  unfold AddCond
  constructor
  · intro h1 k hk hm
    exact h1 k hk ((h.2 k m).mpr hm)
  · intro h1 k hk hm
    exact h1 k hk ((h.2 k m).mp hm)

theorem memEq_initRem {es1 es2 : Edges} (h : MemEq es1 es2)
    (hnd1 : (keyList es1).Nodup) (hnd2 : (keyList es2).Nodup) :
    initRem es1 = initRem es2 := by
  rw [initRem, initRem, h.1]
  have hfil : ∀ x ∈ keyList es2, noIncomingB es1 x = noIncomingB es2 x := by
    intro x _
    cases h2 : noIncomingB es2 x with
    | true =>
        rw [noIncomingB_iff] at h2 ⊢
        exact (not_iff_not.mpr (memEq_hasInc h hnd1 hnd2 x)).mpr h2
    | false =>
        cases h1 : noIncomingB es1 x with
        | false => rfl
        | true =>
            exfalso
            rw [noIncomingB_iff] at h1
            have h2' : ¬ HasInc es2 x :=
              (not_iff_not.mpr (memEq_hasInc h hnd1 hnd2 x)).mp h1
            have hcon := (noIncomingB_iff es2 x).mpr h2'
            rw [h2] at hcon
            exact Bool.false_ne_true hcon
  rw [List.filter_congr hfil]

theorem kahnLoop_nil (fuel : Nat) (es : Edges) (ret : List V) :
    kahnLoop fuel es [] ret = (es, ret) := by
  cases fuel <;> rfl

/-- The outer loop is driven only by key membership, value membership and
the pending set: two membership-equal dicts produce the same order and
stay membership-equal. -/
theorem kahnLoop_sim :
    ∀ fuel1 fuel2 esa esb rem ret,
      MemEq esa esb →
      (keyList esa).Nodup → (keyList esb).Nodup →
      rem.Chain' (· < ·) →
      totalEdges esa + rem.length ≤ fuel1 →
      totalEdges esb + rem.length ≤ fuel2 →
      (kahnLoop fuel1 esa rem ret).2 = (kahnLoop fuel2 esb rem ret).2 ∧
      MemEq (kahnLoop fuel1 esa rem ret).1 (kahnLoop fuel2 esb rem ret).1 ∧
      (keyList (kahnLoop fuel1 esa rem ret).1).Nodup ∧
      (keyList (kahnLoop fuel2 esb rem ret).1).Nodup := by
  intro fuel1
  induction fuel1 with
  | zero =>
      intro fuel2 esa esb rem ret hme hnda hndb hsorted hf1 hf2
      cases rem with
      | nil =>
          rw [kahnLoop_nil, kahnLoop_nil]
          exact ⟨rfl, hme, hnda, hndb⟩
      | cons n rem' =>
          exfalso
          rw [List.length_cons] at hf1
          omega
  | succ fuel1 ih =>
      intro fuel2 esa esb rem ret hme hnda hndb hsorted hf1 hf2
      cases rem with
      | nil =>
          rw [kahnLoop_nil, kahnLoop_nil]
          exact ⟨rfl, hme, hnda, hndb⟩
      | cons n rem' =>
          have hf2pos : 0 < fuel2 := by
            rw [List.length_cons] at hf2
            omega
          obtain ⟨fuel2', rfl⟩ : ∃ f, fuel2 = f + 1 :=
            ⟨fuel2 - 1, by omega⟩
          have hkeymem : n ∈ keyList esa ↔ n ∈ keyList esb := by rw [hme.1]
          have hrem'sorted := (List.chain'_cons'.mp hsorted).2
          cases hlka : lk esa n with
          | none =>
              have hlkb : lk esb n = none := by
                rw [lk_eq_none] at hlka ⊢
                exact fun h => hlka (hkeymem.mpr h)
              rw [show kahnLoop (fuel1 + 1) esa (n :: rem') ret =
                    kahnLoop fuel1 esa rem' (ret ++ [n]) by
                simp [kahnLoop, hlka]]
              rw [show kahnLoop (fuel2' + 1) esb (n :: rem') ret =
                    kahnLoop fuel2' esb rem' (ret ++ [n]) by
                simp [kahnLoop, hlkb]]
              apply ih fuel2' esa esb rem' (ret ++ [n]) hme hnda hndb hrem'sorted
              · rw [List.length_cons] at hf1; omega
              · rw [List.length_cons] at hf2; omega
          | some l1 =>
              have hlkb : ∃ l2, lk esb n = some l2 := by
                have : n ∈ keyList esb :=
                  hkeymem.mp ((lk_isSome_iff esa n).mp (by simp [hlka]))
                have := (lk_isSome_iff esb n).mpr this
                cases h : lk esb n with
                | none => rw [h] at this; simp at this
                | some l2 => exact ⟨l2, rfl⟩
              obtain ⟨l2, hlkb⟩ := hlkb
              have hl12 : ∀ x, x ∈ l1 ↔ x ∈ l2 := by
                intro x
                have := hme.2 n x
                rwa [lkD, lkD, hlka, hlkb] at this
              obtain ⟨ha1, ha2, ha3, ha4⟩ :=
                remChildren_spec n l1 esa rem' l1 hnda hlka (List.Perm.refl l1)
                  hrem'sorted
              obtain ⟨hb1, hb2, hb3, hb4⟩ :=
                remChildren_spec n l2 esb rem' l2 hndb hlkb (List.Perm.refl l2)
                  hrem'sorted
              have hremeq : (remChildren esa n rem' l1).2 =
                  (remChildren esb n rem' l2).2 := by
                apply sorted_ext ha2 hb2
                intro x
                rw [ha3 x, hb3 x, hl12 x, memEq_addCond hme]
              have hmeq' : MemEq (remChildren esa n rem' l1).1
                  (remChildren esb n rem' l2).1 := by
                rw [ha1, hb1]
                constructor
                · rw [keyList_updVal, keyList_updVal]
                  exact hme.1
                · intro k x
                  rw [lkD, lkD, lk_updVal, lk_updVal]
                  by_cases hk : k = n
                  · rw [if_pos hk, if_pos hk, hlka, hlkb]
                    simp
                  · rw [if_neg hk, if_neg hk]
                    exact hme.2 k x
              have hnda' : (keyList (remChildren esa n rem' l1).1).Nodup := by
                rw [ha1, keyList_updVal]; exact hnda
              have hndb' : (keyList (remChildren esb n rem' l2).1).Nodup := by
                rw [hb1, keyList_updVal]; exact hndb
              have htota : totalEdges (remChildren esa n rem' l1).1 + l1.length =
                  totalEdges esa := by
                rw [ha1]; exact totalEdges_updVal_empty hnda hlka
              have htotb : totalEdges (remChildren esb n rem' l2).1 + l2.length =
                  totalEdges esb := by
                rw [hb1]; exact totalEdges_updVal_empty hndb hlkb
              rw [show kahnLoop (fuel1 + 1) esa (n :: rem') ret =
                    kahnLoop fuel1 (remChildren esa n rem' l1).1
                      (remChildren esa n rem' l1).2 (ret ++ [n]) by
                simp [kahnLoop, hlka]]
              rw [show kahnLoop (fuel2' + 1) esb (n :: rem') ret =
                    kahnLoop fuel2' (remChildren esb n rem' l2).1
                      (remChildren esb n rem' l2).2 (ret ++ [n]) by
                simp [kahnLoop, hlkb]]
              rw [hremeq]
              apply ih fuel2' _ _ _ (ret ++ [n]) hmeq' hnda' hndb' (hremeq ▸ ha2)
              · rw [List.length_cons] at hf1
                rw [← hremeq]
                omega
              · rw [List.length_cons] at hf2
                omega

theorem lkD_ne_nil_iff (es : Edges) (k : V) :
    lkD es k ≠ [] ↔ ∃ x, x ∈ lkD es k := by
  cases h : lkD es k with
  | nil => simp
  | cons y ys => simp

theorem memEq_any_nonempty {esa esb : Edges} (hme : MemEq esa esb)
    (hnda : (keyList esa).Nodup) (hndb : (keyList esb).Nodup) :
    esa.any (fun p => p.2 ≠ []) = esb.any (fun p => p.2 ≠ []) := by
  have hiff : (∃ p ∈ esa, p.2 ≠ []) ↔ (∃ p ∈ esb, p.2 ≠ []) := by
    have hside : ∀ (es : Edges), (keyList es).Nodup →
        ((∃ p ∈ es, p.2 ≠ []) ↔ ∃ k x, x ∈ lkD es k) := by
      intro es hnd
      constructor
      · rintro ⟨p, hp, hne⟩
        obtain ⟨x, hx⟩ := (lkD_ne_nil_iff es p.1).mp (by
          rw [lkD, lk_of_mem hnd hp]
          simpa using hne)
        exact ⟨p.1, x, hx⟩
      · rintro ⟨k, x, hx⟩
        rw [lkD] at hx
        cases hl : lk es k with
        | none => rw [hl] at hx; simp at hx
        | some l =>
            rw [hl] at hx
            refine ⟨(k, l), lk_mem_of_some hl, ?_⟩
            intro h0
            simp only at h0
            rw [h0] at hx
            simp at hx
    rw [hside esa hnda, hside esb hndb]
    constructor
    · rintro ⟨k, x, hx⟩; exact ⟨k, x, (hme.2 k x).mp hx⟩
    · rintro ⟨k, x, hx⟩; exact ⟨k, x, (hme.2 k x).mpr hx⟩
  cases hb : esb.any (fun p => p.2 ≠ []) with
  | true =>
      rw [List.any_eq_true] at hb ⊢
      obtain ⟨p, hp, hne⟩ := hb
      obtain ⟨q, hq, hqe⟩ := hiff.mpr ⟨p, hp, by simpa using hne⟩
      exact ⟨q, hq, by simpa using hqe⟩
  | false =>
      cases ha : esa.any (fun p => p.2 ≠ []) with
      | false => rfl
      | true =>
          exfalso
          rw [List.any_eq_true] at ha
          obtain ⟨p, hp, hne⟩ := ha
          obtain ⟨q, hq, hqe⟩ := hiff.mp ⟨p, hp, by simpa using hne⟩
          have : esb.any (fun p => p.2 ≠ []) = true :=
            List.any_eq_true.mpr ⟨q, hq, by simpa using hqe⟩
          rw [hb] at this
          exact Bool.false_ne_true this

/-- Two membership-equal dicts topologically sort to the same result. -/
theorem toposort_sim {es1 es2 : Edges} (hme : MemEq es1 es2)
    (hnd1 : (keyList es1).Nodup) (hnd2 : (keyList es2).Nodup) :
    toposort es1 = toposort es2 := by
  rw [toposort_eq_kahnRun, toposort_eq_kahnRun]
  have hinit : initRem es1 = initRem es2 := memEq_initRem hme hnd1 hnd2
  have hlen1 : (initRem es1).length ≤ (keyList es1).length :=
    le_trans (sortDedup_length _) (List.length_filter_le _ _)
  have hlen2 : (initRem es2).length ≤ (keyList es2).length :=
    le_trans (sortDedup_length _) (List.length_filter_le _ _)
  obtain ⟨hret, hmef, hndf1, hndf2⟩ :=
    kahnLoop_sim (totalEdges es1 + (keyList es1).length + 1)
      (totalEdges es2 + (keyList es2).length + 1) es1 es2 (initRem es1) []
      hme hnd1 hnd2 (sortDedup_sorted _)
      (by omega)
      (by rw [hinit]; omega)
  rw [kahnRun, kahnRun, ← hinit]
  rw [memEq_any_nonempty hmef hndf1 hndf2, hret]

theorem succLoop_congr (L : List V) (es es2 : Edges)
    (h : ∀ n rem',
      (match lk es2 n with
       | some l => l.foldl addIfAbsent rem'
       | none => rem') =
      (match lk es n with
       | some l => l.foldl addIfAbsent rem'
       | none => rem')) :
    ∀ fuel rem ret, succLoop L es2 fuel rem ret = succLoop L es fuel rem ret := by
  intro fuel
  induction fuel with
  | zero => intro rem ret; rfl
  | succ fuel ih =>
      intro rem ret
      cases rem with
      | nil => rfl
      | cons r rs =>
          have h2 : succLoop L es2 (fuel + 1) (r :: rs) ret =
              succLoop L es2 fuel
                (match lk es2 (pickMin L (r :: rs)) with
                 | some l => l.foldl addIfAbsent ((r :: rs).erase (pickMin L (r :: rs)))
                 | none => (r :: rs).erase (pickMin L (r :: rs)))
                (ret ++ [pickMin L (r :: rs)]) := rfl
          have h1 : succLoop L es (fuel + 1) (r :: rs) ret =
              succLoop L es fuel
                (match lk es (pickMin L (r :: rs)) with
                 | some l => l.foldl addIfAbsent ((r :: rs).erase (pickMin L (r :: rs)))
                 | none => (r :: rs).erase (pickMin L (r :: rs)))
                (ret ++ [pickMin L (r :: rs)]) := rfl
          rw [h2, h1, h (pickMin L (r :: rs)) ((r :: rs).erase (pickMin L (r :: rs)))]
          exact ih _ _

theorem precLoop_congr (L : List V) (es es2 : Edges)
    (hk : keyList es2 = keyList es)
    (hmem : ∀ k x, x ∈ lkD es2 k ↔ x ∈ lkD es k) :
    ∀ fuel rem ret, precLoop L es2 fuel rem ret = precLoop L es fuel rem ret := by
  have hfil : ∀ n, (keyList es2).filter (fun m => n ∈ lkD es2 m) =
      (keyList es).filter (fun m => n ∈ lkD es m) := by
    intro n
    rw [hk]
    apply List.filter_congr
    intro m _
    exact decide_eq_decide.mpr (hmem m n)
  intro fuel
  induction fuel with
  | zero => intro rem ret; rfl
  | succ fuel ih =>
      intro rem ret
      cases rem with
      | nil => rfl
      | cons r rs =>
          have h2 : precLoop L es2 (fuel + 1) (r :: rs) ret =
              precLoop L es2 fuel
                (((keyList es2).filter
                    (fun m => pickMax L (r :: rs) ∈ lkD es2 m)).foldl addIfAbsent
                  ((r :: rs).erase (pickMax L (r :: rs))))
                (ret ++ [pickMax L (r :: rs)]) := rfl
          have h1 : precLoop L es (fuel + 1) (r :: rs) ret =
              precLoop L es fuel
                (((keyList es).filter
                    (fun m => pickMax L (r :: rs) ∈ lkD es m)).foldl addIfAbsent
                  ((r :: rs).erase (pickMax L (r :: rs))))
                (ret ++ [pickMax L (r :: rs)]) := rfl
          rw [h2, h1, hfil (pickMax L (r :: rs))]
          exact ih _ _

/-- C9 counterexample.  Through the documented API one can reach the state
`{0: [1]}` in which the edge 0→1 exists but 1 is no longer a dict key
(duplicate `add(0,1)` then `remove(1)`, whose `list.remove` deletes only
one copy).  Re-adding the existing edge then resurrects vertex 1, so the
observable vertex set changes: duplicate add-edge is not idempotent on
every reachable graph. -/
theorem claim_C9_counterexample :
    Graph.empty.addEdge 0 1 = .ok ⟨[(0, [1]), (1, [])], [0, 1]⟩ ∧
    Graph.addEdge ⟨[(0, [1]), (1, [])], [0, 1]⟩ 0 1 =
      .ok ⟨[(0, [1, 1]), (1, [])], [0, 1]⟩ ∧
    Graph.removeVertex ⟨[(0, [1, 1]), (1, [])], [0, 1]⟩ 1 =
      .ok ⟨[(0, [1])], [0, 1]⟩ ∧
    (1 : V) ∈ lkD [(0, [1])] 0 ∧
    Graph.addEdge ⟨[(0, [1])], [0, 1]⟩ 0 1 =
      .ok ⟨[(0, [1, 1]), (1, [])], [0, 1]⟩ ∧
    (Graph.mk [(0, [1, 1]), (1, [])] [0, 1]).vertices ≠
      (Graph.mk [(0, [1])] [0, 1]).vertices := by
  refine ⟨rfl, rfl, rfl, by decide, rfl, by decide⟩

/-- C9 (algebraic_relational), amended.  Re-adding an existing edge v→w
never errors; and whenever the target w is still a vertex (true except in
the dangling state of the counterexample), the call is observably
idempotent: vertex list, topological order, edge relation, and all
successors/precursors results are unchanged. -/
theorem claim_C9_amended (g : Graph) (hWF : g.WF) (v w : V)
    (hvw : w ∈ lkD g.edges v) (hw : w ∈ g.vertices) :
    g.addEdge v w = .ok (addEdgeState g v w) ∧
    (addEdgeState g v w).vertices = g.vertices ∧
    (addEdgeState g v w).toporder = g.toporder ∧
    (∀ a b, edgeOf (addEdgeState g v w).edges a b ↔ edgeOf g.edges a b) ∧
    (∀ u, Graph.successors (addEdgeState g v w) u = Graph.successors g u) ∧
    (∀ u, Graph.precursors (addEdgeState g v w) u = Graph.precursors g u) := by
  obtain ⟨l, hlk, hwl⟩ : ∃ l, lk g.edges v = some l ∧ w ∈ l := by
    rw [lkD] at hvw
    cases hl : lk g.edges v with
    | none => rw [hl] at hvw; simp at hvw
    | some l => rw [hl] at hvw; exact ⟨l, rfl, by simpa using hvw⟩
  have hkeyv : hasKey g.edges v = true := by simp [hasKey, hlk]
  have hes1 : addEdgeEdges g v w = updVal g.edges v (fun l => l ++ [w]) := by
    rw [addEdgeEdges]
    rw [if_pos hkeyv]
    have hkeyw : hasKey (updVal g.edges v (fun l => l ++ [w])) w = true := by
      rw [hasKey, Option.isSome_iff_ne_none]
      intro hnone
      rw [lk_eq_none, keyList_updVal] at hnone
      exact hnone hw
    rw [if_pos hkeyw]
  have hme : MemEq g.edges (addEdgeEdges g v w) := by
    rw [hes1]
    constructor
    · rw [keyList_updVal]
    · intro k x
      rw [lkD, lkD, lk_updVal]
      by_cases hk : k = v
      · rw [if_pos hk, hk, hlk]
        simp only [Option.map_some', Option.getD_some]
        constructor
        · intro h; exact List.mem_append.mpr (Or.inl h)
        · intro h
          rcases List.mem_append.mp h with h | h
          · exact h
          · exact (List.mem_singleton.mp h) ▸ hwl
      · rw [if_neg hk]
  have hnd2 : (keyList (addEdgeEdges g v w)).Nodup := addEdgeEdges_nodup hWF.1 v w
  have htopo : toposort (addEdgeEdges g v w) = .ok g.toporder := by
    rw [← toposort_sim hme hWF.1 hnd2]
    exact hWF.2
  have hok : g.addEdge v w = .ok ⟨addEdgeEdges g v w, g.toporder⟩ := by
    rw [addEdge_eq, htopo]
  have hst : addEdgeState g v w = ⟨addEdgeEdges g v w, g.toporder⟩ := by
    rw [addEdgeState, hok]
  have hsuccmatch : ∀ n rem',
      (match lk (addEdgeEdges g v w) n with
       | some l => l.foldl addIfAbsent rem'
       | none => rem') =
      (match lk g.edges n with
       | some l => l.foldl addIfAbsent rem'
       | none => rem') := by
    intro n rem'
    rw [hes1, lk_updVal]
    by_cases hn : n = v
    · rw [if_pos hn, hn, hlk]
      simp only [Option.map_some']
      rw [List.foldl_append]
      simp only [List.foldl_cons, List.foldl_nil]
      rw [addIfAbsent,
        if_pos ((foldl_addIfAbsent_mem l rem' w).mpr (Or.inr hwl))]
    · rw [if_neg hn]
  refine ⟨hst ▸ hok, ?_, ?_, ?_, ?_, ?_⟩
  · rw [hst, Graph.vertices, Graph.vertices]
    exact hme.1.symm
  · rw [hst]
  · intro a b
    rw [hst, edgeOf_iff_lkD, edgeOf_iff_lkD]
    exact (hme.2 a b).symm
  · intro u
    rw [hst, Graph.successors, Graph.successors]
    have hlku : lk (addEdgeEdges g v w) u =
        (if u = v then some (l ++ [w]) else lk g.edges u) := by
      rw [hes1, lk_updVal]
      by_cases hu : u = v
      · subst hu
        rw [if_pos rfl, if_pos rfl, hlk]
        rfl
      · rw [if_neg hu, if_neg hu]
    by_cases hu : u = v
    · rw [hlku, if_pos hu, hu, hlk]
      simp only
      have hrem0 : (l ++ [w]).foldl addIfAbsent [] = l.foldl addIfAbsent [] := by
        rw [List.foldl_append]
        simp only [List.foldl_cons, List.foldl_nil]
        rw [addIfAbsent,
          if_pos ((foldl_addIfAbsent_mem l [] w).mpr (Or.inr hwl))]
      rw [hrem0, succLoop_congr g.toporder g.edges (addEdgeEdges g v w) hsuccmatch]
    · rw [hlku, if_neg hu]
      cases hlg : lk g.edges u with
      | none => rfl
      | some lu =>
          simp only
          rw [succLoop_congr g.toporder g.edges (addEdgeEdges g v w) hsuccmatch]
  · intro u
    rw [hst, Graph.precursors, Graph.precursors]
    simp only
    have hkeq : keyList (addEdgeEdges g v w) = keyList g.edges := hme.1.symm
    have hmemeq : ∀ k x, x ∈ lkD (addEdgeEdges g v w) k ↔ x ∈ lkD g.edges k :=
      fun k x => (hme.2 k x).symm
    have hfil : (keyList (addEdgeEdges g v w)).filter
        (fun m => u ∈ lkD (addEdgeEdges g v w) m) =
        (keyList g.edges).filter (fun m => u ∈ lkD g.edges m) := by
      rw [hkeq]
      apply List.filter_congr
      intro m _
      exact decide_eq_decide.mpr (hmemeq m u)
    rw [hfil, precLoop_congr g.toporder g.edges (addEdgeEdges g v w) hkeq hmemeq]

/-- Witness for the amended C9: re-adding 0→1 on the one-edge graph is
accepted and observably a no-op. -/
theorem claim_C9_amended_witness :
    Graph.addEdge ⟨[(0, [1]), (1, [])], [0, 1]⟩ 0 1 =
      .ok (addEdgeState ⟨[(0, [1]), (1, [])], [0, 1]⟩ 0 1) ∧
    (addEdgeState ⟨[(0, [1]), (1, [])], [0, 1]⟩ 0 1).toporder = [0, 1] ∧
    (addEdgeState ⟨[(0, [1]), (1, [])], [0, 1]⟩ 0 1).vertices = [0, 1] := by
  have hWF : (Graph.mk [(0, [1]), (1, [])] [0, 1]).WF := ⟨by decide, rfl⟩
  obtain ⟨h1, h2, h3, _, _, _⟩ :=
    claim_C9_amended ⟨[(0, [1]), (1, [])], [0, 1]⟩ hWF 0 1 (by decide) (by decide)
  exact ⟨h1, h3, by rw [h2]; rfl⟩

/-! ### Sweep lemmas for the orchestrator -/

theorem ite_pair_fst (c : Prop) [Decidable c] {α β : Type} (x : α) (a b : β) :
    (if c then (x, a) else (x, b)).1 = x := by
  by_cases h : c
  · rw [if_pos h]
  · rw [if_neg h]

theorem startNode_frame (B : Behav) (s : Stages) (n m : V) (hmn : m ≠ n) :
    (startNode B s n).1 m = s m := by
  rw [startNode]
  by_cases hg : s n = Stage.started ∨ s n = Stage.starting
  · rw [if_pos hg, ite_pair_fst]
  · rw [if_neg hg, ite_pair_fst]
    simp [upd, hmn]

theorem startNode_ok (B : Behav) (s : Stages) (n : V)
    (h : (startNode B s n).2 = none) : (startNode B s n).1 n = Stage.started := by
  rw [startNode] at h ⊢
  by_cases hg : s n = Stage.started ∨ s n = Stage.starting
  · rw [if_pos hg] at h ⊢
    by_cases hc : s n = Stage.started
    · simp [hc]
    · rw [if_neg hc] at h
      simp at h
  · rw [if_neg hg] at h ⊢
    by_cases hc : (upd s n (B.bstart n (s n))) n = Stage.started
    · simp [hc]
    · rw [if_neg hc] at h
      simp at h

theorem startNode_skip (B : Behav) (s : Stages) (n : V)
    (h : s n = Stage.started ∨ s n = Stage.starting) :
    (startNode B s n).1 = s := by
  rw [startNode, if_pos h]
  by_cases hc : s n = Stage.started <;> simp [hc]

theorem startNode_keep (B : Behav) (s : Stages) (n m : V)
    (h : s m = Stage.started) : (startNode B s n).1 m = Stage.started := by
  by_cases hmn : m = n
  · subst hmn
    rw [startNode_skip B s m (Or.inl h)]
    exact h
  · rw [startNode_frame B s n m hmn]
    exact h

theorem stopNode_frame (B : Behav) (s : Stages) (n m : V) (hmn : m ≠ n) :
    (stopNode B s n).1 m = s m := by
  rw [stopNode]
  by_cases hg : s n = Stage.stopped ∨ s n = Stage.stopping
  · rw [if_pos hg, ite_pair_fst]
  · rw [if_neg hg, ite_pair_fst]
    simp [upd, hmn]

theorem stopNode_ok (B : Behav) (s : Stages) (n : V)
    (h : (stopNode B s n).2 = none) : (stopNode B s n).1 n = Stage.stopped := by
  rw [stopNode] at h ⊢
  by_cases hg : s n = Stage.stopped ∨ s n = Stage.stopping
  · rw [if_pos hg] at h ⊢
    by_cases hc : s n = Stage.stopped
    · simp [hc]
    · rw [if_neg hc] at h
      simp at h
  · rw [if_neg hg] at h ⊢
    by_cases hc : (upd s n (B.bstop n (s n))) n = Stage.stopped
    · simp [hc]
    · rw [if_neg hc] at h
      simp at h

theorem stopNode_skip (B : Behav) (s : Stages) (n : V)
    (h : s n = Stage.stopped ∨ s n = Stage.stopping) :
    (stopNode B s n).1 = s := by
  rw [stopNode, if_pos h]
  by_cases hc : s n = Stage.stopped <;> simp [hc]

theorem failNode_applies (B : Behav) (s : Stages) (n : V) (e : LErr) :
    (failNode B s n e).1 n = B.bfail n (s n) := by
  rw [failNode, ite_pair_fst]
  simp [upd]

theorem failNode_frame (B : Behav) (s : Stages) (n : V) (e : LErr) (m : V)
    (hmn : m ≠ n) : (failNode B s n e).1 m = s m := by
  rw [failNode, ite_pair_fst]
  simp [upd, hmn]

theorem failNode_ok (B : Behav) (s : Stages) (n : V) (e : LErr)
    (h : (failNode B s n e).2 = none) : (failNode B s n e).1 n = Stage.failed := by
  rw [failNode] at h ⊢
  by_cases hc : (upd s n (B.bfail n (s n))) n = Stage.failed
  · simp [hc]
  · rw [if_neg hc] at h
    simp at h

/-- Frame property of a sweep: nodes outside the list are untouched, even
when the sweep aborts. -/
theorem sweep_frame (f : Stages → V → Stages × Option LErr)
    (hframe : ∀ s n m, m ≠ n → (f s n).1 m = s m) :
    ∀ (L : List V) (s : Stages) (m : V), m ∉ L → (sweep f s L).1 m = s m := by
  intro L
  induction L with
  | nil => intro s m _; rfl
  | cons n ns ih =>
      intro s m hm
      have hmn : m ≠ n := fun h => hm (h ▸ List.mem_cons_self n ns)
      have hmns : m ∉ ns := fun h => hm (List.mem_cons_of_mem n h)
      rw [sweep]
      cases hf : f s n with
      | mk s' e =>
          cases e with
          | none =>
              simp only
              rw [ih s' m hmns]
              rw [show s' = (f s n).1 by rw [hf]]
              exact hframe s n m hmn
          | some err =>
              simp only
              rw [show s' = (f s n).1 by rw [hf]]
              exact hframe s n m hmn

/-- A successful sweep leaves every listed node at the terminal stage. -/
theorem sweep_ok_all (f : Stages → V → Stages × Option LErr) (T : Stage)
    (hframe : ∀ s n m, m ≠ n → (f s n).1 m = s m)
    (hterm : ∀ s n, (f s n).2 = none → (f s n).1 n = T) :
    ∀ (L : List V) (s : Stages), (sweep f s L).2 = none →
      ∀ n ∈ L, (sweep f s L).1 n = T := by
  intro L
  induction L with
  | nil => intro s _ n hn; simp at hn
  | cons a as ih =>
      intro s hok n hn
      rw [sweep] at hok ⊢
      cases hf : f s a with
      | mk s' e =>
          rw [hf] at hok
          cases e with
          | some err => simp at hok
          | none =>
              simp only at hok ⊢
              rcases List.mem_cons.mp hn with rfl | hn'
              · by_cases hnas : n ∈ as
                · exact ih s' hok n hnas
                · rw [sweep_frame f hframe as s' n hnas]
                  rw [show s' = (f s n).1 by rw [hf]]
                  exact hterm s n (by rw [hf])
              · exact ih s' hok n hn'

/-- Stages already at the preserved value survive a sweep. -/
theorem sweep_keep (f : Stages → V → Stages × Option LErr) (T : Stage)
    (hkeep : ∀ s n m, s m = T → (f s n).1 m = T) :
    ∀ (L : List V) (s : Stages) (m : V), s m = T → (sweep f s L).1 m = T := by
  intro L
  induction L with
  | nil => intro s m h; exact h
  | cons a as ih =>
      intro s m h
      rw [sweep]
      cases hf : f s a with
      | mk s' e =>
          have hs' : s' m = T := by
            rw [show s' = (f s a).1 by rw [hf]]
            exact hkeep s a m h
          cases e with
          | none => exact ih s' m hs'
          | some err => simpa using hs'

theorem sweep_start_all_started (B : Behav) :
    ∀ (L : List V) (s : Stages), (∀ n, s n = Stage.started) →
      sweep (startNode B) s L = (s, none) := by
  intro L
  induction L with
  | nil => intro s _; rfl
  | cons a as ih =>
      intro s hall
      rw [sweep]
      have hs : startNode B s a = (s, none) := by
        rw [startNode, if_pos (Or.inl (hall a)), if_pos (hall a)]
      rw [hs]
      exact ih s hall

/-! ### The orchestrator claims -/

/-- C3 counterexample.  On a one-vertex graph with the container stage at
Stopped, the targeted `start(0)` succeeds and leaves the container's own
stage at Started: `self.starting()`/`self.started()` run unconditionally
before and after the branch, so a targeted start does move the
orchestrator's stage, contradicting the claim that only a full sweep
does. -/
theorem claim_C3_counterexample :
    (contStart ⟨fun _ _ => Stage.started, fun _ _ => Stage.stopped,
        fun _ _ => Stage.failed⟩
      ⟨[(0, [])], [0]⟩ ⟨fun _ => Stage.stopped, Stage.stopped⟩ (some 0)).2 = none ∧
    (contStart ⟨fun _ _ => Stage.started, fun _ _ => Stage.stopped,
        fun _ _ => Stage.failed⟩
      ⟨[(0, [])], [0]⟩ ⟨fun _ => Stage.stopped, Stage.stopped⟩ (some 0)).1.cstage =
      Stage.started ∧
    Stage.started ≠ Stage.stopped := by
  exact ⟨rfl, rfl, by decide⟩

/-- C3 (frame_effect), amended.  Targeted `Start(v)` sweeps
`Precursors(v)` in ascending topological order and then `v`; on success
every swept node ends Started and unrelated nodes keep their stages — but
the orchestrator's own stage is NOT left untouched: it is bracketed
Starting→Started exactly as in a full sweep (and left at Starting if the
sweep aborts). -/
theorem claim_C3_amended (B : Behav) (g : Graph) (hWF : g.WF) (st : CState)
    (v : V) :
    (g.precursors v).Sublist g.toporder ∧
    (contStart B g st (some v)).1.stages =
      (sweep (startNode B) st.stages (g.precursors v ++ [v])).1 ∧
    ((contStart B g st (some v)).2 = none →
      (contStart B g st (some v)).1.cstage = Stage.started ∧
      (contStart B g st (some v)).1.stages v = Stage.started ∧
      (∀ n ∈ g.precursors v, (contStart B g st (some v)).1.stages n = Stage.started) ∧
      (∀ n, n ∉ g.precursors v → n ≠ v →
        (contStart B g st (some v)).1.stages n = st.stages n)) ∧
    ((contStart B g st (some v)).2 ≠ none →
      (contStart B g st (some v)).1.cstage = Stage.starting) := by
  have hsub : (g.precursors v).Sublist g.toporder := (precursors_spec hWF v).1
  have hunfold : contStart B g st (some v) =
      match sweep (startNode B) st.stages (g.precursors v ++ [v]) with
      | (s, none) => (⟨s, Stage.started⟩, none)
      | (s, some e) => (⟨s, Stage.starting⟩, some e) := rfl
  cases hsw : sweep (startNode B) st.stages (g.precursors v ++ [v]) with
  | mk s e =>
      cases e with
      | none =>
          rw [hunfold, hsw]
          refine ⟨hsub, rfl, ?_, ?_⟩
          · intro _
            have hall := sweep_ok_all (startNode B) Stage.started
              (startNode_frame B) (startNode_ok B) (g.precursors v ++ [v])
              st.stages (by rw [hsw])
            refine ⟨rfl, ?_, ?_, ?_⟩
            · have := hall v (by simp)
              rw [hsw] at this
              exact this
            · intro n hn
              have := hall n (by simp [hn])
              rw [hsw] at this
              exact this
            · intro n hn hnv
              have := sweep_frame (startNode B) (startNode_frame B)
                (g.precursors v ++ [v]) st.stages n
                (by simp [hn, hnv])
              rw [hsw] at this
              exact this
          · intro hc
            exact absurd rfl hc
      | some err =>
          rw [hunfold, hsw]
          refine ⟨hsub, rfl, ?_, fun _ => rfl⟩
          intro hc
          simp at hc

/-- Witness for the amended C3: targeted start of 1 on the graph 0→1
starts 0 then 1 and moves the container stage to Started. -/
theorem claim_C3_amended_witness :
    (contStart ⟨fun _ _ => Stage.started, fun _ _ => Stage.stopped,
        fun _ _ => Stage.failed⟩ ⟨[(0, [1]), (1, [])], [0, 1]⟩
      ⟨fun _ => Stage.stopped, Stage.stopped⟩ (some 1)).1.cstage = Stage.started ∧
    (contStart ⟨fun _ _ => Stage.started, fun _ _ => Stage.stopped,
        fun _ _ => Stage.failed⟩ ⟨[(0, [1]), (1, [])], [0, 1]⟩
      ⟨fun _ => Stage.stopped, Stage.stopped⟩ (some 1)).1.stages 1 = Stage.started ∧
    (contStart ⟨fun _ _ => Stage.started, fun _ _ => Stage.stopped,
        fun _ _ => Stage.failed⟩ ⟨[(0, [1]), (1, [])], [0, 1]⟩
      ⟨fun _ => Stage.stopped, Stage.stopped⟩ (some 1)).1.stages 0 = Stage.started := by
  have hWF : (Graph.mk [(0, [1]), (1, [])] [0, 1]).WF := ⟨by decide, rfl⟩
  obtain ⟨_, _, hok, _⟩ := claim_C3_amended
    ⟨fun _ _ => Stage.started, fun _ _ => Stage.stopped, fun _ _ => Stage.failed⟩
    ⟨[(0, [1]), (1, [])], [0, 1]⟩ hWF ⟨fun _ => Stage.stopped, Stage.stopped⟩ 1
  obtain ⟨h1, h2, h3, _⟩ := hok rfl
  refine ⟨h1, h2, ?_⟩
  apply h3
  rw [show Graph.precursors ⟨[(0, [1]), (1, [])], [0, 1]⟩ 1 = [0] from rfl]
  simp

/-- C4 counterexample.  In the reachable dangling state `{0: [1]}` (built
by a duplicate add-edge and a remove, see the C9 counterexample) the
vertex set is `[0]` but the maintained order is `[0, 1]`.  Stopping
target 0 moves the orchestrator's own stage to Stopped although
`|Successors(0)| = 1 ≠ 0 = totalVertices − 1`: the code's covered test
uses `len(toporder) − 1`, not the number of vertices minus one. -/
theorem claim_C4_counterexample :
    Graph.successors ⟨[(0, [1])], [0, 1]⟩ 0 = .ok [1] ∧
    (Graph.mk [(0, [1])] [0, 1]).vertices.length - 1 = 0 ∧
    (1 : Nat) ≠ 0 ∧
    (contStop ⟨fun _ _ => Stage.started, fun _ _ => Stage.stopped,
        fun _ _ => Stage.failed⟩ ⟨[(0, [1])], [0, 1]⟩
      ⟨fun _ => Stage.started, Stage.started⟩ (some 0)).2 = none ∧
    (contStop ⟨fun _ _ => Stage.started, fun _ _ => Stage.stopped,
        fun _ _ => Stage.failed⟩ ⟨[(0, [1])], [0, 1]⟩
      ⟨fun _ => Stage.started, Stage.started⟩ (some 0)).1.cstage = Stage.stopped ∧
    Stage.stopped ≠ Stage.started := by
  exact ⟨rfl, rfl, by decide, rfl, rfl, by decide⟩

/-- C4 (functional_correctness), amended.  Targeted `Stop(v)` sweeps
`reversed(Successors(v))` then `v`, and `Fail(v)` does the same with fail
transitions; on success each swept node reaches the terminal stage,
unrelated nodes are untouched, and the orchestrator's own stage
transitions around the sweep if and only if `covered`, where `covered`
compares `|Successors(v)|` with `len(TopologicalOrder()) − 1` (the length
of the maintained order, which equals the vertex count except in
dangling-edge states); when not covered the orchestrator's stage is
unchanged. -/
theorem claim_C4_amended (B : Behav) (g : Graph) (st : CState) (v : V)
    (descs : List V) (hdescs : g.successors v = .ok descs) :
    ((contStop B g st (some v)).1.stages =
      (sweep (stopNode B) st.stages (descs.reverse ++ [v])).1) ∧
    ((contStop B g st (some v)).2 = none →
      (contStop B g st (some v)).1.cstage =
        (if coveredBy g descs then Stage.stopped else st.cstage) ∧
      (contStop B g st (some v)).1.stages v = Stage.stopped ∧
      (∀ n ∈ descs, (contStop B g st (some v)).1.stages n = Stage.stopped) ∧
      (∀ n, n ∉ descs → n ≠ v →
        (contStop B g st (some v)).1.stages n = st.stages n)) ∧
    ((contFail B g st (some v)).2 = none →
      (contFail B g st (some v)).1.cstage =
        (if coveredBy g descs then Stage.failed else st.cstage) ∧
      (contFail B g st (some v)).1.stages v = Stage.failed ∧
      (∀ n ∈ descs, (contFail B g st (some v)).1.stages n = Stage.failed) ∧
      (∀ n, n ∉ descs → n ≠ v →
        (contFail B g st (some v)).1.stages n = st.stages n)) := by
  have hstop : contStop B g st (some v) =
      (match sweep (stopNode B) st.stages (descs.reverse ++ [v]) with
       | (s, none) => (⟨s, if coveredBy g descs then Stage.stopped
            else if coveredBy g descs then Stage.stopping else st.cstage⟩, none)
       | (s, some e) =>
            (⟨s, if coveredBy g descs then Stage.stopping else st.cstage⟩, some e)) := by
    have h0 : contStop B g st (some v) =
        (match g.successors v with
         | .error _ => (st, some (.keyError v))
         | .ok ds =>
             match sweep (stopNode B) st.stages (ds.reverse ++ [v]) with
             | (s, none) => (⟨s, if coveredBy g ds then Stage.stopped
                  else if coveredBy g ds then Stage.stopping else st.cstage⟩, none)
             | (s, some e) =>
                  (⟨s, if coveredBy g ds then Stage.stopping else st.cstage⟩,
                    some e)) := rfl
    rw [h0, hdescs]
  have hfail : contFail B g st (some v) =
      (match sweep (fun s n => failNode B s n .unboundLocal) st.stages
          descs.reverse with
       | (s, some e) =>
            (⟨s, if coveredBy g descs then Stage.failing else st.cstage⟩, some e)
       | (s, none) =>
           match failNode B s v (.lifecycleExc v) with
           | (s', none) => (⟨s', if coveredBy g descs then Stage.failed
                else if coveredBy g descs then Stage.failing else st.cstage⟩, none)
           | (s', some e) =>
                (⟨s', if coveredBy g descs then Stage.failing else st.cstage⟩,
                  some e)) := by
    have h0 : contFail B g st (some v) =
        (match g.successors v with
         | .error _ => (st, some (.keyError v))
         | .ok ds =>
             match sweep (fun s n => failNode B s n .unboundLocal) st.stages
                 ds.reverse with
             | (s, some e) =>
                  (⟨s, if coveredBy g ds then Stage.failing else st.cstage⟩, some e)
             | (s, none) =>
                 match failNode B s v (.lifecycleExc v) with
                 | (s', none) => (⟨s', if coveredBy g ds then Stage.failed
                      else if coveredBy g ds then Stage.failing else st.cstage⟩, none)
                 | (s', some e) =>
                      (⟨s', if coveredBy g ds then Stage.failing else st.cstage⟩,
                        some e)) := rfl
    rw [h0, hdescs]
  refine ⟨?_, ?_, ?_⟩
  · rw [hstop]
    cases hsw : sweep (stopNode B) st.stages (descs.reverse ++ [v]) with
    | mk s e => cases e <;> rfl
  · intro hok
    rw [hstop] at hok ⊢
    cases hsw : sweep (stopNode B) st.stages (descs.reverse ++ [v]) with
    | mk s e =>
        rw [hsw] at hok
        cases e with
        | some err => simp at hok
        | none =>
            have hall := sweep_ok_all (stopNode B) Stage.stopped
              (stopNode_frame B) (stopNode_ok B) (descs.reverse ++ [v])
              st.stages (by rw [hsw])
            refine ⟨by by_cases hc : coveredBy g descs <;> simp [hc], ?_, ?_, ?_⟩
            · have := hall v (by simp)
              rw [hsw] at this
              exact this
            · intro n hn
              have := hall n (by simp [hn])
              rw [hsw] at this
              exact this
            · intro n hn hnv
              have := sweep_frame (stopNode B) (stopNode_frame B)
                (descs.reverse ++ [v]) st.stages n (by simp [hn, hnv])
              rw [hsw] at this
              exact this
  · intro hok
    rw [hfail] at hok ⊢
    cases hsw : sweep (fun s n => failNode B s n .unboundLocal) st.stages
        descs.reverse with
    | mk s e =>
        rw [hsw] at hok
        cases e with
        | some err => simp at hok
        | none =>
            simp only at hok ⊢
            cases hfn : failNode B s v (.lifecycleExc v) with
            | mk s' e' =>
                rw [hfn] at hok
                cases e' with
                | some err => simp at hok
                | none =>
                    have hall := sweep_ok_all
                      (fun s n => failNode B s n .unboundLocal) Stage.failed
                      (fun s n m hmn => failNode_frame B s n _ m hmn)
                      (fun s n => failNode_ok B s n _)
                      descs.reverse st.stages (by rw [hsw])
                    have hs'v : s' v = Stage.failed := by
                      have := failNode_ok B s v (.lifecycleExc v) (by rw [hfn])
                      rw [hfn] at this
                      exact this
                    refine ⟨by by_cases hc : coveredBy g descs <;> simp [hc],
                      hs'v, ?_, ?_⟩
                    · intro n hn
                      by_cases hnv : n = v
                      · exact hnv ▸ hs'v
                      · have h1 := hall n (by simp [hn])
                        rw [hsw] at h1
                        have h2 := failNode_frame B s v (.lifecycleExc v) n hnv
                        rw [hfn] at h2
                        simp only at h1 h2
                        show s' n = Stage.failed
                        rw [h2, h1]
                    · intro n hn hnv
                      have h1 := sweep_frame
                        (fun s n => failNode B s n .unboundLocal)
                        (fun s n m hmn => failNode_frame B s n _ m hmn)
                        descs.reverse st.stages n (by simp [hn])
                      rw [hsw] at h1
                      have h2 := failNode_frame B s v (.lifecycleExc v) n hnv
                      rw [hfn] at h2
                      simp only at h1 h2
                      show s' n = st.stages n
                      rw [h2, h1]

/-- Witness for the amended C4 on the graph 0→1: stopping target 0 is
covered (1 = 2−1), all nodes end Stopped and the container stage ends
Stopped; stopping target 1 is not covered and the container stage keeps
its old value. -/
theorem claim_C4_amended_witness :
    (contStop ⟨fun _ _ => Stage.started, fun _ _ => Stage.stopped,
        fun _ _ => Stage.failed⟩ ⟨[(0, [1]), (1, [])], [0, 1]⟩
      ⟨fun _ => Stage.started, Stage.started⟩ (some 0)).1.cstage = Stage.stopped ∧
    (contStop ⟨fun _ _ => Stage.started, fun _ _ => Stage.stopped,
        fun _ _ => Stage.failed⟩ ⟨[(0, [1]), (1, [])], [0, 1]⟩
      ⟨fun _ => Stage.started, Stage.started⟩ (some 1)).1.cstage = Stage.started := by
  have h0 := claim_C4_amended
    ⟨fun _ _ => Stage.started, fun _ _ => Stage.stopped, fun _ _ => Stage.failed⟩
    ⟨[(0, [1]), (1, [])], [0, 1]⟩ ⟨fun _ => Stage.started, Stage.started⟩ 0 [1] rfl
  have h1 := claim_C4_amended
    ⟨fun _ _ => Stage.started, fun _ _ => Stage.stopped, fun _ _ => Stage.failed⟩
    ⟨[(0, [1]), (1, [])], [0, 1]⟩ ⟨fun _ => Stage.started, Stage.started⟩ 1 [] rfl
  constructor
  · have := (h0.2.1 rfl).1
    rw [if_pos (show coveredBy ⟨[(0, [1]), (1, [])], [0, 1]⟩ [1] from by
      rw [coveredBy]; rfl)] at this
    exact this
  · have := (h1.2.1 rfl).1
    rw [if_neg (show ¬ coveredBy ⟨[(0, [1]), (1, [])], [0, 1]⟩ [] from by
      rw [coveredBy]; simp)] at this
    exact this

/-- C6 (error_handling) failing-input evaluation.  On the graph 0→1 with
both nodes Started and a fail action that leaves the stage unchanged,
`fail(0)` aborts at descendant 1 — but it raises `UnboundLocalError`
(its raise-line references the never-bound name `node`), not the
`LifecycleException` for node 1 the spec promises.  The rest of the
claimed behaviour does hold at this input: the remainder of the sweep is
not executed, the already-visited nodes keep their stages, and the
orchestrator is left at its mid-flight Failing stage. -/
theorem claim_C6 :
    (contFail ⟨fun _ _ => Stage.started, fun _ _ => Stage.stopped, fun _ σ => σ⟩
      ⟨[(0, [1]), (1, [])], [0, 1]⟩ ⟨fun _ => Stage.started, Stage.started⟩
      (some 0)).2 = some LErr.unboundLocal ∧
    some LErr.unboundLocal ≠ some (LErr.lifecycleExc 1) ∧
    (contFail ⟨fun _ _ => Stage.started, fun _ _ => Stage.stopped, fun _ σ => σ⟩
      ⟨[(0, [1]), (1, [])], [0, 1]⟩ ⟨fun _ => Stage.started, Stage.started⟩
      (some 0)).1.cstage = Stage.failing ∧
    (contFail ⟨fun _ _ => Stage.started, fun _ _ => Stage.stopped, fun _ σ => σ⟩
      ⟨[(0, [1]), (1, [])], [0, 1]⟩ ⟨fun _ => Stage.started, Stage.started⟩
      (some 0)).1.stages 0 = Stage.started := by
  exact ⟨rfl, by decide, rfl, rfl⟩

theorem contStart_keep (B : Behav) (g : Graph) (st : CState) (inst : Option V)
    (m : V) (h : st.stages m = Stage.started) :
    (contStart B g st inst).1.stages m = Stage.started := by
  cases inst with
  | none =>
      have hunfold : contStart B g st none =
          match sweep (startNode B) st.stages g.toporder with
          | (s, none) => (⟨s, Stage.started⟩, none)
          | (s, some e) => (⟨s, Stage.starting⟩, some e) := rfl
      rw [hunfold]
      cases hsw : sweep (startNode B) st.stages g.toporder with
      | mk s e =>
          have hs : s m = Stage.started := by
            have := sweep_keep (startNode B) Stage.started (startNode_keep B)
              g.toporder st.stages m h
            rw [hsw] at this
            exact this
          cases e <;> exact hs
  | some v =>
      have hunfold : contStart B g st (some v) =
          match sweep (startNode B) st.stages (g.precursors v ++ [v]) with
          | (s, none) => (⟨s, Stage.started⟩, none)
          | (s, some e) => (⟨s, Stage.starting⟩, some e) := rfl
      rw [hunfold]
      cases hsw : sweep (startNode B) st.stages (g.precursors v ++ [v]) with
      | mk s e =>
          have hs : s m = Stage.started := by
            have := sweep_keep (startNode B) Stage.started (startNode_keep B)
              (g.precursors v ++ [v]) st.stages m h
            rw [hsw] at this
            exact this
          cases e <;> exact hs

theorem contStart_target (B : Behav) (g : Graph) (st : CState) (v : V)
    (h : (contStart B g st (some v)).2 = none) :
    (contStart B g st (some v)).1.stages v = Stage.started := by
  have hunfold : contStart B g st (some v) =
      match sweep (startNode B) st.stages (g.precursors v ++ [v]) with
      | (s, none) => (⟨s, Stage.started⟩, none)
      | (s, some e) => (⟨s, Stage.starting⟩, some e) := rfl
  rw [hunfold] at h ⊢
  cases hsw : sweep (startNode B) st.stages (g.precursors v ++ [v]) with
  | mk s e =>
      rw [hsw] at h
      cases e with
      | some err => simp at h
      | none =>
          have := sweep_ok_all (startNode B) Stage.started (startNode_frame B)
            (startNode_ok B) (g.precursors v ++ [v]) st.stages (by rw [hsw])
            v (by simp)
          rw [hsw] at this
          exact this

theorem startSeq_ok (B : Behav) (g : Graph) :
    ∀ (L : List V) (st st' : CState), startSeq B g st L = (st', none) →
      (∀ d ∈ L, st'.stages d = Stage.started) ∧
      (∀ m, st.stages m = Stage.started → st'.stages m = Stage.started) := by
  intro L
  induction L with
  | nil =>
      intro st st' h
      obtain rfl : st = st' := congrArg Prod.fst h
      exact ⟨by simp, fun m hm => hm⟩
  | cons d ds ih =>
      intro st st' h
      rw [startSeq] at h
      cases hcs : contStart B g st (some d) with
      | mk st1 e =>
          rw [hcs] at h
          cases e with
          | some err =>
              exact absurd (congrArg Prod.snd h) (by simp)
          | none =>
              simp only at h
              obtain ⟨hd, hkeep⟩ := ih st1 st' h
              have hst1d : st1.stages d = Stage.started := by
                have := contStart_target B g st d (by rw [hcs])
                rw [hcs] at this
                exact this
              constructor
              · intro x hx
                rcases List.mem_cons.mp hx with rfl | hx'
                · exact hkeep x hst1d
                · exact hd x hx'
              · intro m hm
                apply hkeep
                have := contStart_keep B g st (some d) m hm
                rw [hcs] at this
                exact this

/-- C7 (functional_correctness).  `Restart(v)` is `Stop(v)` followed by a
full targeted start of every node in `Successors(v)` in ascending order
and finally of `v` itself; on success the target and every one of its
transitive successors end at stage Started. -/
theorem claim_C7 (B : Behav) (g : Graph) (st : CState) (v : V) (st' : CState)
    (h : contRestart B g st v = (st', none)) :
    st'.stages v = Stage.started ∧
    ∀ descs, g.successors v = .ok descs →
      ∀ w ∈ descs, st'.stages w = Stage.started := by
  rw [contRestart] at h
  cases hcs : contStop B g st (some v) with
  | mk st1 e =>
      rw [hcs] at h
      cases e with
      | some err => exact absurd (congrArg Prod.snd h) (by simp)
      | none =>
          simp only at h
          cases hsucc : g.successors v with
          | error err =>
              rw [hsucc] at h
              exact absurd (congrArg Prod.snd h) (by simp)
          | ok descs =>
              rw [hsucc] at h
              simp only at h
              obtain ⟨hall, _⟩ := startSeq_ok B g (descs ++ [v]) st1 st' h
              refine ⟨hall v (by simp), ?_⟩
              intro ds hds w hw
              obtain rfl : descs = ds := Except.ok.inj hds
              exact hall w (by simp [hw])

/-- Witness for C7: restarting 0 on the graph 0→1 from the all-stopped
state succeeds and leaves both 0 and its successor 1 Started. -/
theorem claim_C7_witness :
    ((contRestart ⟨fun _ _ => Stage.started, fun _ _ => Stage.stopped,
        fun _ _ => Stage.failed⟩ ⟨[(0, [1]), (1, [])], [0, 1]⟩
      ⟨fun _ => Stage.stopped, Stage.stopped⟩ 0).1).stages 0 = Stage.started ∧
    ((contRestart ⟨fun _ _ => Stage.started, fun _ _ => Stage.stopped,
        fun _ _ => Stage.failed⟩ ⟨[(0, [1]), (1, [])], [0, 1]⟩
      ⟨fun _ => Stage.stopped, Stage.stopped⟩ 0).1).stages 1 = Stage.started := by
  have h : contRestart ⟨fun _ _ => Stage.started, fun _ _ => Stage.stopped,
      fun _ _ => Stage.failed⟩ ⟨[(0, [1]), (1, [])], [0, 1]⟩
      ⟨fun _ => Stage.stopped, Stage.stopped⟩ 0 =
      ((contRestart ⟨fun _ _ => Stage.started, fun _ _ => Stage.stopped,
          fun _ _ => Stage.failed⟩ ⟨[(0, [1]), (1, [])], [0, 1]⟩
        ⟨fun _ => Stage.stopped, Stage.stopped⟩ 0).1, none) := rfl
  obtain ⟨h1, h2⟩ := claim_C7 _ _ _ _ _ h
  exact ⟨h1, h2 [1] rfl 1 (by simp)⟩

/-- C10 (functional_correctness).  The fail transition has no idempotence
guard: `failNode` applies the node's fail action unconditionally (in
particular to nodes already Failed), whereas the start and stop
transitions skip nodes already in {Started, Starting} and
{Stopped, Stopping}; consequently a full Fail sweep re-invokes the action
of an already-Failed node and aborts if that action does not produce
Failed, while a full Start sweep over already-Started nodes is a no-op. -/
theorem claim_C10 (B : Behav) (s : Stages) (n : V) (e : LErr) :
    ((failNode B s n e).1 n = B.bfail n (s n)) ∧
    ((s n = Stage.started ∨ s n = Stage.starting) → (startNode B s n).1 = s) ∧
    ((s n = Stage.stopped ∨ s n = Stage.stopping) → (stopNode B s n).1 = s) ∧
    (∀ (B' : Behav) (g : Graph) (st : CState),
      g.toporder = [n] → st.stages n = Stage.failed →
      B'.bfail n Stage.failed ≠ Stage.failed →
      (contFail B' g st none).2 = some (LErr.lifecycleExc n)) ∧
    (∀ (B' : Behav) (g : Graph) (st : CState),
      (∀ m, st.stages m = Stage.started) →
      contStart B' g st none = (⟨st.stages, Stage.started⟩, none)) := by
  refine ⟨failNode_applies B s n e, startNode_skip B s n, stopNode_skip B s n,
    ?_, ?_⟩
  · intro B' g st hg hstn hB
    have h1 : failNode B' st.stages n (.lifecycleExc n) =
        (upd st.stages n (B'.bfail n (st.stages n)), some (.lifecycleExc n)) := by
      rw [failNode, if_neg]
      rw [show (upd st.stages n (B'.bfail n (st.stages n))) n =
          B'.bfail n (st.stages n) by simp [upd]]
      rw [hstn]
      exact hB
    have h2 : contFail B' g st none =
        match sweep (fun s m => failNode B' s m (.lifecycleExc m)) st.stages
            g.toporder.reverse with
        | (s, none) => (⟨s, Stage.failed⟩, none)
        | (s, some e) => (⟨s, Stage.failing⟩, some e) := rfl
    rw [h2, hg]
    rw [show ([n] : List V).reverse = [n] by simp]
    have h3 : sweep (fun s m => failNode B' s m (.lifecycleExc m)) st.stages [n] =
        (upd st.stages n (B'.bfail n (st.stages n)), some (.lifecycleExc n)) := by
      have h4 : sweep (fun s m => failNode B' s m (.lifecycleExc m)) st.stages [n] =
          match failNode B' st.stages n (.lifecycleExc n) with
          | (s', none) => (s', none)
          | (s', some err) => (s', some err) := rfl
      rw [h4, h1]
    rw [h3]
  · intro B' g st hall
    have h2 : contStart B' g st none =
        match sweep (startNode B') st.stages g.toporder with
        | (s, none) => (⟨s, Stage.started⟩, none)
        | (s, some e) => (⟨s, Stage.starting⟩, some e) := rfl
    rw [h2, sweep_start_all_started B' g.toporder st.stages hall]

/-- Witness for C10: a node already Failed still has its fail action run
(here the action yields Stopped), and a singleton full Fail sweep over an
already-Failed node aborts with the per-node exception, while the start
guard leaves an all-Started state untouched. -/
theorem claim_C10_witness :
    (failNode ⟨fun _ _ => Stage.started, fun _ _ => Stage.stopped,
        fun _ _ => Stage.stopped⟩ (fun _ => Stage.failed) 0
      LErr.unboundLocal).1 0 = Stage.stopped ∧
    (contFail ⟨fun _ _ => Stage.started, fun _ _ => Stage.stopped,
        fun _ _ => Stage.stopped⟩ ⟨[(0, [])], [0]⟩
      ⟨fun _ => Stage.failed, Stage.failed⟩ none).2 =
      some (LErr.lifecycleExc 0) := by
  have h := claim_C10 ⟨fun _ _ => Stage.started, fun _ _ => Stage.stopped,
      fun _ _ => Stage.stopped⟩ (fun _ => Stage.failed) 0 LErr.unboundLocal
  refine ⟨h.1, ?_⟩
  exact h.2.2.2.1 ⟨fun _ _ => Stage.started, fun _ _ => Stage.stopped,
      fun _ _ => Stage.stopped⟩ ⟨[(0, [])], [0]⟩
      ⟨fun _ => Stage.failed, Stage.failed⟩ rfl rfl (by decide)

end Pyco
